import Mathlib

/-! # Digraph.hpp: the adjacency-list directed graph and its shortest-path engine

A shallow embedding of `src/core/Digraph.hpp`.

* `std::map<int, T>` is an association list kept in ascending key order
  (`StdMap`), with the lookups and updates the header uses.
* A member function that can throw returns `Except Failure _`; a non-const
  member function returns the pair of its outcome and the graph it leaves
  behind, so that "the call failed and changed nothing" is a statement about
  the second component.
* Vertex numbers are `Int` (no arithmetic is done on them).
* Edge weights are `double` in the header, and which of several queue entries
  of equal priority `std::priority_queue` hands out is left to the standard
  library.  The concrete runs of the examples take integer-valued weights, on
  which `double` addition and comparison are exact, and hand out the oldest
  such entry.  What is proved of every run is proved for the engine of the
  section "The shortest-path engine for every arithmetic and every queue
  order", which fixes neither the arithmetic nor the order, and of which the
  engine of the examples is one instance (`Engine.findShortestPaths_exact`).
-/

set_option autoImplicit false

namespace DigraphHpp

/-! ## Failures -/

/-- The class `DigraphException` of the header: it only carries a reason. -/
structure DigraphException where
  reason : String
  deriving DecidableEq, Repr

/-- What a member function can throw: a `DigraphException` built by the header
itself, or the `std::out_of_range` of `std::map::at` on a missing key. -/
inductive Failure where
  | digraph (e : DigraphException)
  | outOfRange
  deriving DecidableEq, Repr

deriving instance DecidableEq for Except

/-! ## `std::map<int, T>` -/

/-- A `std::map<int, T>`: its entries in iteration order. -/
abbrev StdMap (β : Type) := List (Int × β)

namespace StdMap

variable {β : Type}

/-- The lookup `m.find(k)`: the entry stored under `k`, `none` for `m.end()`. -/
def find (m : StdMap β) (k : Int) : Option β :=
  match m with
  | [] => none
  | (k', v) :: rest => if k' = k then some v else find rest k

/-- The checked access `m.at(k)`, which throws `std::out_of_range` on a missing key. -/
def atKey (m : StdMap β) (k : Int) : Except Failure β :=
  match find m k with
  | some v => .ok v
  | none => .error .outOfRange

/-- The assignment `m[k] = v`: replaces the value under `k`, or inserts the
entry at its place in key order. -/
def set (m : StdMap β) (k : Int) (v : β) : StdMap β :=
  match m with
  | [] => [(k, v)]
  | (k', v') :: rest =>
    if k < k' then (k, v) :: (k', v') :: rest
    else if k = k' then (k, v) :: rest
    else (k', v') :: set rest k v

/-- An in-place update of the value stored under an existing key, as in
`m[k].field = x` or `m.at(k) = x`; a map without the key is left as it is. -/
def modify (m : StdMap β) (k : Int) (f : β → β) : StdMap β :=
  match m with
  | [] => []
  | (k', v) :: rest => if k' = k then (k', f v) :: rest else (k', v) :: modify rest k f

/-- The removal `m.erase(k)`. -/
def erase (m : StdMap β) (k : Int) : StdMap β :=
  match m with
  | [] => []
  | (k', v) :: rest => if k' = k then rest else (k', v) :: erase rest k

/-- The assignment `m.at(k) = v`: throws `std::out_of_range` on a missing key,
and otherwise overwrites the value stored under `k`. -/
def assignAt (m : StdMap β) (k : Int) (v : β) : Except Failure (StdMap β) :=
  match find m k with
  | some _ => .ok (modify m k (fun _ => v))
  | none => .error .outOfRange

end StdMap

/-! ## The graph -/

/-- The struct `DigraphEdge<EdgeInfo>`. -/
structure DigraphEdge (E : Type) where
  fromVertex : Int
  toVertex : Int
  einfo : E
  deriving DecidableEq, Repr

/-- The struct `DigraphVertex<VertexInfo, EdgeInfo>`: the payload and the list of outgoing edges. -/
structure DigraphVertex (V E : Type) where
  vinfo : V
  edges : List (DigraphEdge E)
  deriving DecidableEq, Repr

/-- The class `Digraph<VertexInfo, EdgeInfo>`: its only member is `adjList`. -/
structure Digraph (V E : Type) where
  adjList : StdMap (DigraphVertex V E)
  deriving DecidableEq, Repr

namespace Digraph

variable {V E : Type}

/-- The default constructor: no vertices and no edges. -/
def empty : Digraph V E := ⟨[]⟩

/-- The member `vertices()`: every key of `adjList`, in iteration order. -/
def vertices (g : Digraph V E) : List Int :=
  g.adjList.map (fun i => i.1)

/-- The member `edges()`: for every entry of `adjList`, the `(fromVertex, toVertex)`
pair of every edge of its list. -/
def edges (g : Digraph V E) : List (Int × Int) :=
  g.adjList.flatMap (fun i => i.2.edges.map (fun j => (j.fromVertex, j.toVertex)))

/-- The member `edges(int vertex)`: the pairs of the stored edges whose
`fromVertex` is `vertex`; throws when that sequence is empty. -/
def edgesOf (g : Digraph V E) (vertex : Int) : Except Failure (List (Int × Int)) :=
  let edgesVector :=
    g.adjList.flatMap (fun i =>
      (i.2.edges.filter (fun j => j.fromVertex = vertex)).map
        (fun j => (j.fromVertex, j.toVertex)))
  if edgesVector.isEmpty then .error (.digraph ⟨"Vertex does not exist"⟩)
  else .ok edgesVector

/-- The member `vertexInfo(int vertex)`. -/
def vertexInfo (g : Digraph V E) (vertex : Int) : Except Failure V :=
  match g.adjList.find vertex with
  | some dv => .ok dv.vinfo
  | none => .error (.digraph ⟨"Vertex does not exist."⟩)

/-- The member `edgeInfo(int fromVertex, int toVertex)`: the payload of the first
edge of the list of `fromVertex` that points to `toVertex`. -/
def edgeInfo (g : Digraph V E) (fromVertex toVertex : Int) : Except Failure E :=
  match g.adjList.find fromVertex with
  | some dv =>
    match dv.edges.find? (fun i => i.toVertex = toVertex) with
    | some i => .ok i.einfo
    | none => .error (.digraph ⟨"Ingoing vertex does not exist."⟩)
  | none => .error (.digraph ⟨"Outgoing vertex does not exist."⟩)

/-- The member `addVertex(int vertex, const VertexInfo& vinfo)`.  The two
assignments `adjList[vertex] = digraphVertex; adjList[vertex].vinfo = vinfo;`
leave an entry with the payload `vinfo` and an empty edge list. -/
def addVertex (g : Digraph V E) (vertex : Int) (vinfo : V) :
    Except Failure Unit × Digraph V E :=
  match g.adjList.find vertex with
  | none => (.ok (), ⟨g.adjList.set vertex { vinfo := vinfo, edges := [] }⟩)
  | some _ => (.error (.digraph ⟨"Vertex is already in the Digraph."⟩), g)

/-- The member `addEdge(int fromVertex, int toVertex, const EdgeInfo& einfo)`:
only `fromVertex` is looked up; the new edge goes to the back of its list. -/
def addEdge (g : Digraph V E) (fromVertex toVertex : Int) (einfo : E) :
    Except Failure Unit × Digraph V E :=
  match g.adjList.find fromVertex with
  | some dv =>
    let linkedList := dv.edges
    if linkedList.any (fun i => i.toVertex = toVertex) then
      (.error (.digraph ⟨"Edge already exists"⟩), g)
    else
      let digraphEdge : DigraphEdge E :=
        { fromVertex := fromVertex, toVertex := toVertex, einfo := einfo }
      (.ok (), ⟨g.adjList.modify fromVertex
        (fun v => { v with edges := v.edges ++ [digraphEdge] })⟩)
  | none => (.error (.digraph ⟨"Outgoing vertex does not exist"⟩), g)

/-- The member `removeVertex(int vertex)`: `adjList.erase(vertex)` and nothing else. -/
def removeVertex (g : Digraph V E) (vertex : Int) : Except Failure Unit × Digraph V E :=
  match g.adjList.find vertex with
  | some _ => (.ok (), ⟨g.adjList.erase vertex⟩)
  | none => (.error (.digraph ⟨"Vertex does not exist."⟩), g)

/-- The erasure `linkedList.erase(i)` at the first edge that points to `toVertex`. -/
def eraseFirstTo (linkedList : List (DigraphEdge E)) (toVertex : Int) : List (DigraphEdge E) :=
  match linkedList with
  | [] => []
  | i :: rest => if i.toVertex = toVertex then rest else i :: eraseFirstTo rest toVertex

/-- The member `removeEdge(int fromVertex, int toVertex)`.  `linkedList` is a
local copy of the stored list (`std::list<...> linkedList = adjList[fromVertex].edges;`),
the erasure is done on that copy, and the function returns; `adjList` is never
written. -/
def removeEdge (g : Digraph V E) (fromVertex toVertex : Int) :
    Except Failure Unit × Digraph V E :=
  match g.adjList.find fromVertex with
  | some dv =>
    let linkedList := dv.edges
    if linkedList.any (fun i => i.toVertex = toVertex) then
      let _linkedList := eraseFirstTo linkedList toVertex
      (.ok (), g)
    else
      (.error (.digraph ⟨"Edge does not exist."⟩), g)
  | none => (.error (.digraph ⟨"Outgoing vertex does not exist."⟩), g)

/-- The member `vertexCount()`. -/
def vertexCount (g : Digraph V E) : Nat := g.adjList.length

/-- The member `edgeCount()`: the sizes of all edge lists, added up. -/
def edgeCount (g : Digraph V E) : Nat :=
  g.adjList.foldl (fun count i => count + i.2.edges.length) 0

/-- The member `edgeCount(int vertex)`. -/
def edgeCountOf (g : Digraph V E) (vertex : Int) : Except Failure Nat :=
  match g.adjList.find vertex with
  | some dv => .ok dv.edges.length
  | none => .error (.digraph ⟨"Vertex does not exist."⟩)

/-- The member `isStronglyConnected()`: for every vertex, `numReached` counts the
edges of its list whose `toVertex` is a vertex of the graph, and the answer is
`false` as soon as that count differs from the number of vertices.  (`i` runs
over the keys of `adjList`, so `adjList.at(i)` is the entry of `i`.) -/
def isStronglyConnected (g : Digraph V E) : Bool :=
  let allVertices := g.vertices
  g.adjList.all (fun i =>
    let numReached := (i.2.edges.filter (fun j => allVertices.contains j.toVertex)).length
    numReached = allVertices.length)

end Digraph

/-! ## The shortest-path engine -/

/-- The class `CompareDistance`, the ordering handed to `std::priority_queue`:
`firstPair` comes before `secondPair` when its `second` is smaller. -/
def CompareDistance (firstPair secondPair : Int × Int) : Bool :=
  decide (firstPair.2 < secondPair.2)

/-- A `std::priority_queue<std::pair<int, double>, ..., CompareDistance>`: the
entries it holds, oldest first. -/
abbrev PriorityQueue := List (Int × Int)

namespace PriorityQueue

/-- The member `push`. -/
def push (q : PriorityQueue) (x : Int × Int) : PriorityQueue := q ++ [x]

/-- The member `top()`: an entry that `CompareDistance` puts before no other
entry, that is, one whose `second` is largest.  Among several such entries the
standard library is free to choose; this definition, used for the concrete
runs of the examples, takes the oldest, and `Engine.top` below leaves the
choice open. -/
def top (q : PriorityQueue) : Option (Int × Int) :=
  match q with
  | [] => none
  | x :: rest =>
    match top rest with
    | none => some x
    | some y => if CompareDistance x y then some y else some x

/-- The member `pop()`: drops the entry that `top()` returns. -/
def pop (q : PriorityQueue) : PriorityQueue :=
  match top q with
  | none => q
  | some x => q.erase x

end PriorityQueue

/-- The local variables of `findShortestPaths` that live across loop iterations. -/
structure PathState where
  vertexP : StdMap Int
  shortestFound : StdMap Bool
  shortestDistance : StdMap Int
  priorityQ : PriorityQueue
  deriving DecidableEq, Repr

namespace Digraph

variable {V E : Type}

/-- One round of the initialisation loop of `findShortestPaths`, for the vertex
`a = allVertices[i]`. -/
def initVertex (startVertex : Int) (st : PathState) (a : Int) : PathState :=
  let st : PathState :=
    { st with
      vertexP := st.vertexP.set a 0
      shortestFound := st.shortestFound.set a false
      shortestDistance := st.shortestDistance.set a 13337 }
  if a = startVertex then
    { st with
      shortestDistance := st.shortestDistance.set startVertex 0
      vertexP := st.vertexP.set startVertex startVertex }
  else st

/-- The body of the innermost loop of `findShortestPaths`, for the finalized
vertex `vertex`, its edge `i` of weight `distance`, and `a = allVertices[j]`. -/
def relaxAt (vertex : Int) (i : DigraphEdge E) (distance : Int) (st : PathState) (a : Int) :
    Except Failure PathState :=
  if i.toVertex = a then
    match st.shortestFound.atKey a with
    | .error e => .error e
    | .ok found =>
      if found = false then
        match st.shortestDistance.atKey i.toVertex, st.shortestDistance.atKey vertex with
        | .error e, _ => .error e
        | .ok _, .error e => .error e
        | .ok dTo, .ok dVertex =>
          if dTo > dVertex + distance then
            match st.shortestDistance.assignAt i.toVertex (dVertex + distance),
                st.vertexP.assignAt i.toVertex vertex with
            | .error e, _ => .error e
            | .ok _, .error e => .error e
            | .ok shortestDistance, .ok vertexP =>
              .ok { st with
                    shortestDistance := shortestDistance
                    vertexP := vertexP
                    priorityQ := st.priorityQ.push (i.toVertex, distance) }
          else .ok st
      else .ok st
  else .ok st

/-- The loop over `j` for one outgoing edge `i` of the finalized vertex. -/
def relaxEdge (edgeWeightFunc : E → Int) (allVertices : List Int) (vertex : Int)
    (st : PathState) (i : DigraphEdge E) : Except Failure PathState :=
  let distance := edgeWeightFunc i.einfo
  allVertices.foldlM (relaxAt vertex i distance) st

/-- The `while(priorityQ.size() != 0)` loop of `findShortestPaths`, run for at
most `fuel` iterations: `none` when the queue is still not empty after them. -/
def whileLoop (g : Digraph V E) (edgeWeightFunc : E → Int) (allVertices : List Int) :
    Nat → PathState → Option (Except Failure PathState)
  | 0, st => if st.priorityQ.isEmpty then some (.ok st) else none
  | fuel + 1, st =>
    match st.priorityQ.top with
    | none => some (.ok st)
    | some t =>
      let vertex := t.1
      let st : PathState := { st with priorityQ := st.priorityQ.pop }
      -- shortestFound[vertex] inserts the value false under a missing key
      let st : PathState :=
        match st.shortestFound.find vertex with
        | some _ => st
        | none => { st with shortestFound := st.shortestFound.set vertex false }
      if st.shortestFound.find vertex = some false then
        let st : PathState := { st with shortestFound := st.shortestFound.set vertex true }
        match g.adjList.atKey vertex with
        | .error e => some (.error e)
        | .ok dv =>
          match dv.edges.foldlM (relaxEdge edgeWeightFunc allVertices vertex) st with
          | .error e => some (.error e)
          | .ok st => whileLoop g edgeWeightFunc allVertices fuel st
      else whileLoop g edgeWeightFunc allVertices fuel st

/-- The state of `findShortestPaths` when it enters the `while` loop. -/
def initState (g : Digraph V E) (startVertex : Int) : PathState :=
  let st := g.vertices.foldl (initVertex startVertex) ⟨[], [], [], []⟩
  { st with priorityQ := st.priorityQ.push (startVertex, 0) }

/-- The member `findShortestPaths` with the `while` loop cut after `fuel` iterations. -/
def findShortestPathsFuel (g : Digraph V E) (fuel : Nat) (startVertex : Int)
    (edgeWeightFunc : E → Int) : Option (Except Failure (StdMap Int)) :=
  match whileLoop g edgeWeightFunc g.vertices fuel (initState g startVertex) with
  | none => none
  | some (.error e) => some (.error e)
  | some (.ok st) => some (.ok st.vertexP)

/-- The member `findShortestPaths(int startVertex, edgeWeightFunc)`.  Every
queue entry but the first is pushed for one stored edge of a vertex that is
finalized at that moment, so `1 + edgeCount()` iterations are granted. -/
def findShortestPaths (g : Digraph V E) (startVertex : Int) (edgeWeightFunc : E → Int) :
    Option (Except Failure (StdMap Int)) :=
  findShortestPathsFuel g (1 + g.edgeCount) startVertex edgeWeightFunc

end Digraph

/-! ## Concrete graphs -/

/-- Adds the vertices `vs`, each with the payload `()`, by `addVertex`. -/
def addVertices (g : Digraph Unit Int) (vs : List Int) : Digraph Unit Int :=
  vs.foldl (fun g v => (g.addVertex v ()).2) g

/-- Adds the edges `es`, given as `(from, to, payload)`, by `addEdge`. -/
def addEdges (g : Digraph Unit Int) (es : List (Int × Int × Int)) : Digraph Unit Int :=
  es.foldl (fun g e => (g.addEdge e.1 e.2.1 e.2.2).2) g

/-- The graph of the shortest-path example: A, B, C, D are 1, 2, 3, 4 and the
payload of an edge is its weight. -/
def diamond : Digraph Unit Int :=
  addEdges (addVertices Digraph.empty [1, 2, 3, 4]) [(1, 2, 1), (2, 3, 2), (1, 3, 5), (3, 4, 1)]

/-- The graph `diamond` with the weight of the edge from C to D raised to 3, so
that the queue never holds two entries of equal priority. -/
def diamondNoTie : Digraph Unit Int :=
  addEdges (addVertices Digraph.empty [1, 2, 3, 4]) [(1, 2, 1), (2, 3, 2), (1, 3, 5), (3, 4, 3)]

/-- The graph `diamond` with one more vertex E = 5 that has no edge to or from it. -/
def diamondIsolated : Digraph Unit Int :=
  addEdges (addVertices Digraph.empty [1, 2, 3, 4, 5])
    [(1, 2, 1), (2, 3, 2), (1, 3, 5), (3, 4, 1)]

/-- The directed 3-cycle A, B, C = 1, 2, 3 with the edges 1 to 2, 2 to 3 and 3 to 1. -/
def cycle3 : Digraph Unit Int :=
  addEdges (addVertices Digraph.empty [1, 2, 3]) [(1, 2, 1), (2, 3, 1), (3, 1, 1)]

/-- Two vertices 1 and 2 and the single edge from 1 to 2, with payload 7. -/
def oneEdge : Digraph Unit Int :=
  addEdges (addVertices Digraph.empty [1, 2]) [(1, 2, 7)]

/-- A single vertex 1 and no edge. -/
def oneVertex : Digraph Unit Int :=
  addVertices Digraph.empty [1]

/-- The vertices 0 and 5 and no edge. -/
def zeroAndFive : Digraph Unit Int :=
  addVertices Digraph.empty [0, 5]

/-- The vertices 0, 1, 2 and the single edge from 1 to 2, of weight 20000. -/
def longEdge : Digraph Unit Int :=
  addEdges (addVertices Digraph.empty [0, 1, 2]) [(1, 2, 20000)]

/-! ## Reachability, the notion the specification speaks of -/

/-- The vertex `v` can be reached from `u` along stored edges: there is a
chain of pairs of `edges()` leading from `u` to `v` (the empty chain included). -/
def Reachable {V E : Type} (g : Digraph V E) (u v : Int) : Prop :=
  Relation.ReflTransGen (fun a b => (a, b) ∈ g.edges) u v

/-- Strong connectivity as the header's comment defines it: every vertex is
reachable from every other. -/
def StronglyConnected {V E : Type} (g : Digraph V E) : Prop :=
  ∀ u ∈ g.vertices, ∀ v ∈ g.vertices, Reachable g u v

/-! ## Moving a graph -/

namespace Digraph

variable {V E : Type}

/-- The move constructor `Digraph(Digraph&& d)`: the new object starts with an
empty `adjList` and `std::swap(d.adjList, adjList)` exchanges it with that of
`d`.  The result is the pair of the new graph and of `d` afterwards. -/
def moveConstruct (d : Digraph V E) : Digraph V E × Digraph V E :=
  let self : Digraph V E := ⟨[]⟩
  (⟨d.adjList⟩, ⟨self.adjList⟩)

/-- The move assignment `operator=(Digraph&& d)` for two distinct objects:
`std::swap(d.adjList, adjList)`.  The result is the pair of the assigned graph
and of `d` afterwards. -/
def moveAssign (self d : Digraph V E) : Digraph V E × Digraph V E :=
  (⟨d.adjList⟩, ⟨self.adjList⟩)

end Digraph

/-! ## Sequences of calls -/

/-- A call of one of the four mutating member functions. -/
inductive Op (V E : Type) where
  | addVertex (vertex : Int) (vinfo : V)
  | addEdge (fromVertex toVertex : Int) (einfo : E)
  | removeVertex (vertex : Int)
  | removeEdge (fromVertex toVertex : Int)

namespace Digraph

variable {V E : Type}

/-- The graph left behind by one call, whether it returned or threw. -/
def step (g : Digraph V E) (op : Op V E) : Digraph V E :=
  match op with
  | .addVertex vertex vinfo => (g.addVertex vertex vinfo).2
  | .addEdge fromVertex toVertex einfo => (g.addEdge fromVertex toVertex einfo).2
  | .removeVertex vertex => (g.removeVertex vertex).2
  | .removeEdge fromVertex toVertex => (g.removeEdge fromVertex toVertex).2

/-- The graph reached from the empty graph by the calls `ops`, in order. -/
def run (ops : List (Op V E)) : Digraph V E :=
  ops.foldl step empty

/-- Invariant I1 on the listing `edges()`: both ends of every listed edge are
vertices of the graph. -/
def NoDangling (g : Digraph V E) : Prop :=
  ∀ p ∈ g.edges, p.1 ∈ g.vertices ∧ p.2 ∈ g.vertices

/-- The number of outgoing edges stored for `vertex`, 0 when it is no vertex. -/
def outDegree (g : Digraph V E) (vertex : Int) : Nat :=
  match g.adjList.find vertex with
  | some dv => dv.edges.length
  | none => 0

/-- One pass through the body of the `while` loop of `findShortestPaths`, with
`t` the entry that `priorityQ.top()` returned. -/
def iteration (g : Digraph V E) (edgeWeightFunc : E → Int) (allVertices : List Int)
    (st : PathState) (t : Int × Int) : Except Failure PathState :=
  let vertex := t.1
  let st : PathState := { st with priorityQ := st.priorityQ.pop }
  let st : PathState :=
    match st.shortestFound.find vertex with
    | some _ => st
    | none => { st with shortestFound := st.shortestFound.set vertex false }
  if st.shortestFound.find vertex = some false then
    let st : PathState := { st with shortestFound := st.shortestFound.set vertex true }
    match g.adjList.atKey vertex with
    | .error e => .error e
    | .ok dv => dv.edges.foldlM (relaxEdge edgeWeightFunc allVertices vertex) st
  else .ok st

end Digraph

/-- What every call of the four mutating member functions keeps: the keys of
`adjList` ascend strictly (it is a `std::map`), every edge of the list stored
under a key has that key as its `fromVertex`, and no list holds two edges with
the same `toVertex`. -/
def Digraph.WellFormed {V E : Type} (g : Digraph V E) : Prop :=
  g.vertices.Pairwise (fun a b => a < b) ∧
  ∀ i ∈ g.adjList, (∀ e ∈ i.2.edges, e.fromVertex = i.1) ∧
    (i.2.edges.map (fun e => e.toVertex)).Nodup

/-! ## The shortest-path engine for every arithmetic and every queue order

The definitions of the section "The shortest-path engine" above fix two things
that the header leaves to its environment: they compute with integers, and of
several queue entries of equal priority they hand out the oldest.  The
definitions of this section fix neither.  Distances and weights are values of
any type `W` with the operations of `Arith`, and the entry that
`priorityQ.top()` hands out in an iteration is chosen by a parameter `order`
among all entries in the queue.  Every run of the member function, with any
implementation of `std::priority_queue` and with `double` arithmetic, is the
run of these definitions for one `order` and one `Arith`. -/

/-- The operations on `double` that `findShortestPaths` uses: the conversion
of the `int` literals 0 and 13337, the sum `+` and the test `>`.  Nothing is
required of them except that no value is greater than itself, which holds of
every `double`, the infinities and NaN included; in particular the sum may
round. -/
structure Arith (W : Type) where
  ofInt : Int → W
  add : W → W → W
  gt : W → W → Bool
  gt_irrefl : ∀ x, gt x x = false

/-- Exact arithmetic on integer-valued weights. -/
def exactOps : Arith Int where
  ofInt := id
  add := fun a b => a + b
  gt := fun a b => decide (a > b)
  gt_irrefl := by intro x; simp

/-- Arithmetic with a NaN: `none` is NaN, every sum with it is NaN and every
comparison with it is false. -/
def nanOps : Arith (Option Int) where
  ofInt := some
  add := fun a b =>
    match a, b with
    | some x, some y => some (x + y)
    | _, _ => none
  gt := fun a b =>
    match a, b with
    | some x, some y => decide (x > y)
    | _, _ => false
  gt_irrefl := by
    intro x
    cases x <;> simp

/-- Arithmetic whose sum rounds: the exact sum of two integers is rounded down
to an even number. -/
def roundingOps : Arith Int where
  ofInt := id
  add := fun a b => 2 * ((a + b) / 2)
  gt := fun a b => decide (a > b)
  gt_irrefl := by intro x; simp

namespace Engine

variable {V E W : Type}

/-- The local variables of `findShortestPaths` that live across loop
iterations, with distances in `W`. -/
structure PathState (W : Type) where
  vertexP : StdMap Int
  shortestFound : StdMap Bool
  shortestDistance : StdMap W
  priorityQ : List (Int × W)

/-- The member `priorityQ.top()`, when the queue hands out its entry number
`n` (counted from the oldest, and taken modulo the size): `none` for an empty
queue. -/
def top (q : List (Int × W)) (n : Nat) : Option (Int × W) :=
  q[n % q.length]?

/-- The member `priorityQ.pop()`, when the queue hands out its entry number `n`. -/
def pop (q : List (Int × W)) (n : Nat) : List (Int × W) :=
  q.eraseIdx (n % q.length)

/-- One round of the initialisation loop of `findShortestPaths`, for the vertex
`a = allVertices[i]`. -/
def initVertex (ops : Arith W) (startVertex : Int) (st : PathState W) (a : Int) :
    PathState W :=
  let st : PathState W :=
    { st with
      vertexP := st.vertexP.set a 0
      shortestFound := st.shortestFound.set a false
      shortestDistance := st.shortestDistance.set a (ops.ofInt 13337) }
  if a = startVertex then
    { st with
      shortestDistance := st.shortestDistance.set startVertex (ops.ofInt 0)
      vertexP := st.vertexP.set startVertex startVertex }
  else st

/-- The body of the innermost loop of `findShortestPaths`, for the finalized
vertex `vertex`, its edge `i` of weight `distance`, and `a = allVertices[j]`. -/
def relaxAt (ops : Arith W) (vertex : Int) (i : DigraphEdge E) (distance : W)
    (st : PathState W) (a : Int) : Except Failure (PathState W) :=
  if i.toVertex = a then
    match st.shortestFound.atKey a with
    | .error e => .error e
    | .ok found =>
      if found = false then
        match st.shortestDistance.atKey i.toVertex, st.shortestDistance.atKey vertex with
        | .error e, _ => .error e
        | .ok _, .error e => .error e
        | .ok dTo, .ok dVertex =>
          if ops.gt dTo (ops.add dVertex distance) = true then
            match st.shortestDistance.assignAt i.toVertex (ops.add dVertex distance),
                st.vertexP.assignAt i.toVertex vertex with
            | .error e, _ => .error e
            | .ok _, .error e => .error e
            | .ok shortestDistance, .ok vertexP =>
              .ok { st with
                    shortestDistance := shortestDistance
                    vertexP := vertexP
                    priorityQ := st.priorityQ ++ [(i.toVertex, distance)] }
          else .ok st
      else .ok st
  else .ok st

/-- The loop over `j` for one outgoing edge `i` of the finalized vertex. -/
def relaxEdge (ops : Arith W) (edgeWeightFunc : E → W) (allVertices : List Int)
    (vertex : Int) (st : PathState W) (i : DigraphEdge E) : Except Failure (PathState W) :=
  let distance := edgeWeightFunc i.einfo
  allVertices.foldlM (relaxAt ops vertex i distance) st

/-- One pass through the body of the `while` loop of `findShortestPaths`, when
the queue hands out its entry number `n`, which is `t`. -/
def iteration (ops : Arith W) (g : Digraph V E) (edgeWeightFunc : E → W)
    (allVertices : List Int) (n : Nat) (st : PathState W) (t : Int × W) :
    Except Failure (PathState W) :=
  let vertex := t.1
  let st : PathState W := { st with priorityQ := pop st.priorityQ n }
  -- shortestFound[vertex] inserts the value false under a missing key
  let st : PathState W :=
    match st.shortestFound.find vertex with
    | some _ => st
    | none => { st with shortestFound := st.shortestFound.set vertex false }
  if st.shortestFound.find vertex = some false then
    let st : PathState W := { st with shortestFound := st.shortestFound.set vertex true }
    match g.adjList.atKey vertex with
    | .error e => .error e
    | .ok dv => dv.edges.foldlM (relaxEdge ops edgeWeightFunc allVertices vertex) st
  else .ok st

/-- The `while(priorityQ.size() != 0)` loop of `findShortestPaths`, run for at
most `fuel` iterations: `none` when the queue is still not empty after them.
In its k-th iteration from here the queue hands out the entry number
`order k q`, where `q` lists the entries it holds, oldest first. -/
def whileLoop (ops : Arith W) (g : Digraph V E) (edgeWeightFunc : E → W)
    (allVertices : List Int) :
    Nat → (Nat → List (Int × W) → Nat) → PathState W → Option (Except Failure (PathState W))
  | 0, _, st => if st.priorityQ.isEmpty then some (.ok st) else none
  | fuel + 1, order, st =>
    match top st.priorityQ (order 0 st.priorityQ) with
    | none => some (.ok st)
    | some t =>
      match iteration ops g edgeWeightFunc allVertices (order 0 st.priorityQ) st t with
      | .error e => some (.error e)
      | .ok st => whileLoop ops g edgeWeightFunc allVertices fuel (fun k => order (k + 1)) st

/-- The state of `findShortestPaths` when it enters the `while` loop. -/
def initState (ops : Arith W) (g : Digraph V E) (startVertex : Int) : PathState W :=
  let st := g.vertices.foldl (initVertex ops startVertex) ⟨[], [], [], []⟩
  { st with priorityQ := st.priorityQ ++ [(startVertex, ops.ofInt 0)] }

/-- The result of `findShortestPaths` for a run of the `while` loop that ended with `r`. -/
def resultOf (r : Except Failure (PathState W)) : Except Failure (StdMap Int) :=
  match r with
  | .ok st => .ok st.vertexP
  | .error e => .error e

/-- The member `findShortestPaths(int startVertex, edgeWeightFunc)` for the
arithmetic `ops` and the queue order `order`.  Every queue entry but the first
is pushed for one stored edge of a vertex that is finalized at that moment, so
`1 + edgeCount()` iterations are granted. -/
def findShortestPaths (ops : Arith W) (order : Nat → List (Int × W) → Nat)
    (g : Digraph V E) (startVertex : Int) (edgeWeightFunc : E → W) :
    Option (Except Failure (StdMap Int)) :=
  match whileLoop ops g edgeWeightFunc g.vertices (1 + g.edgeCount) order
      (initState ops g startVertex) with
  | none => none
  | some r => some (resultOf r)

/-- The vertices that a state of `findShortestPaths` has finalized
(`shortestFound` is true), each once. -/
def finalized (g : Digraph V E) (st : PathState W) : Finset Int :=
  g.vertices.toFinset.filter (fun k => st.shortestFound.find k = some true)

/-- The vertices that a state of `findShortestPaths` has not finalized, each once. -/
def pending (g : Digraph V E) (st : PathState W) : Finset Int :=
  g.vertices.toFinset.filter (fun k => ¬ st.shortestFound.find k = some true)

/-- The sum of the out-degrees of the finalized vertices. -/
def finalizedOutDegree (g : Digraph V E) (st : PathState W) : Nat :=
  ∑ k ∈ finalized g st, g.outDegree k

/-- The sum of the out-degrees of the vertices not finalized yet. -/
def pendingOutDegree (g : Digraph V E) (st : PathState W) : Nat :=
  ∑ k ∈ pending g st, g.outDegree k

/-- What holds of the local variables of `findShortestPaths(startVertex, _)`
whenever the `while` loop tests its condition, for a start vertex of the graph:
the three maps have an entry for every vertex, `vertexP` has no other entry and
its keys ascend strictly, the queue holds vertices only, the entry of a vertex
other than the start is 0 or a vertex with a stored edge to it, and the entry
of the start is the start. -/
structure PathInv (g : Digraph V E) (startVertex : Int) (st : PathState W) : Prop where
  found_some : ∀ k ∈ g.vertices, ∃ b, st.shortestFound.find k = some b
  distance_some : ∀ k ∈ g.vertices, ∃ d, st.shortestDistance.find k = some d
  vertexP_keys : ∀ k, (∃ u, st.vertexP.find k = some u) ↔ k ∈ g.vertices
  vertexP_sorted : (st.vertexP.map (fun i => i.1)).Pairwise (fun a b => a < b)
  queue_vertices : ∀ x ∈ st.priorityQ, x.1 ∈ g.vertices
  pred_edge : ∀ v u, v ≠ startVertex → st.vertexP.find v = some u →
    u = 0 ∨ ∃ x, g.edgeInfo u v = .ok x
  start_self : st.vertexP.find startVertex = some startVertex

/-- The edge `i` of `vertex`, of weight `distance`, has been relaxed: the
tentative distance of its target is the sum of that of `vertex` and `distance`. -/
def Settled (ops : Arith W) (vertex : Int) (i : DigraphEdge E) (distance : W)
    (st : PathState W) : Prop :=
  ∃ dVertex, st.shortestDistance.find vertex = some dVertex ∧
    st.shortestDistance.find i.toVertex = some (ops.add dVertex distance)

/-- The state that the innermost loop body of `findShortestPaths` leaves when
its two tests succeed, `dVertex` being the tentative distance of `vertex`. -/
def relaxed (ops : Arith W) (vertex : Int) (i : DigraphEdge E) (distance dVertex : W)
    (st : PathState W) : PathState W :=
  { st with
    shortestDistance := st.shortestDistance.modify i.toVertex
      (fun _ => ops.add dVertex distance)
    vertexP := st.vertexP.modify i.toVertex (fun _ => vertex)
    priorityQ := st.priorityQ ++ [(i.toVertex, distance)] }

/-- The bound on the number of iterations of the `while` loop for a run that
ended with `r`: 1 plus the out-degrees of the vertices finalized at the end; a
run that threw did so in its first iteration. -/
def iterationBound (g : Digraph V E) (r : Except Failure (PathState W)) : Nat :=
  match r with
  | .ok st => 1 + finalizedOutDegree g st
  | .error _ => 1

/-- The queue order of the section "The shortest-path engine": the entry that
`PriorityQueue.top` returns, the oldest of those with the largest `second`. -/
def oldestLargest (_ : Nat) (q : List (Int × Int)) : Nat :=
  match PriorityQueue.top q with
  | some t => q.indexOf t
  | none => 0

/-- The queue order that always hands out the newest entry. -/
def newestFirst (_ : Nat) (q : List (Int × W)) : Nat := q.length - 1

/-- The state of the section "The shortest-path engine" as a state of this one. -/
def ofPathState (st : DigraphHpp.PathState) : PathState Int :=
  ⟨st.vertexP, st.shortestFound, st.shortestDistance, st.priorityQ⟩

end Engine

/-- The vertices 1, 2, 3, 5 with the edges from 1 to 2, from 1 to 3, from 2 to
5, from 3 to 5 and from 3 to 4, each of weight 1: after the start vertex 1 the
queue holds the entries of 2 and 3 with equal priority, and 4 is no vertex. -/
def tieGraph : Digraph Unit Int :=
  addEdges (addVertices Digraph.empty [1, 2, 3, 5])
    [(1, 2, 1), (1, 3, 1), (2, 5, 1), (3, 5, 1), (3, 4, 1)]

/-- The weight function that returns NaN for the payload -7 and the payload
itself otherwise. -/
def nanWeight (einfo : Int) : Option Int :=
  if einfo = -7 then none else some einfo

/-- The vertices 1 and 2 with a self-loop at 1 of weight -5, an edge from 1
to 2 of weight 1 and an edge back from 2 to 1 of weight -7. -/
def loopBack : Digraph Unit Int :=
  addEdges (addVertices Digraph.empty [1, 2]) [(1, 1, -5), (1, 2, 1), (2, 1, -7)]

/-- The vertices 1 and 2 and the single edge from 1 to 2, of weight 20000. -/
def heavyEdge : Digraph Unit Int :=
  addEdges (addVertices Digraph.empty [1, 2]) [(1, 2, 20000)]

/-- The calls that build the vertices 1 and 2 with all four edges between them,
the two self-loops included. -/
def completeTwoOps : List (Op Unit Int) :=
  [.addVertex 1 (), .addVertex 2 (), .addEdge 1 1 1, .addEdge 1 2 1, .addEdge 2 1 1,
    .addEdge 2 2 1]

/-- The calls `addVertex(1)`, `addEdge(1, 2, 9)`. -/
def danglingByAddOps : List (Op Unit Int) :=
  [.addVertex 1 (), .addEdge 1 2 9]

/-- The calls `addVertex(1)`, `addVertex(2)`, `addEdge(1, 2, 7)`, `removeVertex(2)`. -/
def danglingByRemoveOps : List (Op Unit Int) :=
  [.addVertex 1 (), .addVertex 2 (), .addEdge 1 2 7, .removeVertex 2]

end DigraphHpp

/-! # Theorems -/

namespace DigraphHpp

/-! ## Lookups -/

theorem StdMap.find_eq_none_iff {β : Type} (m : StdMap β) (k : Int) :
    m.find k = none ↔ k ∉ m.map (fun i => i.1) := by
  induction m with
  | nil => simp [StdMap.find]
  | cons hd tl ih =>
    obtain ⟨k', v⟩ := hd
    by_cases hk : k' = k
    · simp [StdMap.find, hk]
    · have hk' : ¬ k = k' := fun h => hk h.symm
      simp [StdMap.find, hk, hk', ih]

theorem StdMap.find_isSome_of_mem {β : Type} (m : StdMap β) (k : Int)
    (h : k ∈ m.map (fun i => i.1)) : ∃ v, m.find k = some v := by
  cases hf : m.find k with
  | none => exact absurd h ((StdMap.find_eq_none_iff m k).1 hf)
  | some v => exact ⟨v, rfl⟩

/-! ## The shortest-path engine on the examples of the specification -/

/-- C1 (the code departs from the claim): on the graph A, B, C, D = 1, 2, 3, 4
with the edges A to B (1), B to C (2), A to C (5), C to D (1) and start A,
`findShortestPaths` returns predecessor(C) = A, although the path through B
weighs 1 + 2 = 3 < 5; the same happens when no two queue entries ever tie. -/
theorem findShortestPaths_diamond :
    diamond.findShortestPaths 1 id = some (.ok [(1, 1), (2, 1), (3, 1), (4, 3)]) ∧
    diamond.edgeInfo 1 2 = .ok 1 ∧ diamond.edgeInfo 2 3 = .ok 2 ∧
    diamond.edgeInfo 1 3 = .ok 5 ∧
    diamondNoTie.findShortestPaths 1 id = some (.ok [(1, 1), (2, 1), (3, 1), (4, 3)]) := by
  refine ⟨by rfl, by rfl, by rfl, by rfl, by rfl⟩

/-- C2 (the code departs from the claim): with an isolated vertex E = 5 added
to the example graph, `findShortestPaths` from A returns predecessor(E) = 0,
not E, and E is not reachable from A. -/
theorem findShortestPaths_isolated :
    diamondIsolated.findShortestPaths 1 id =
      some (.ok [(1, 1), (2, 1), (3, 1), (4, 3), (5, 0)]) ∧
    5 ∈ diamondIsolated.vertices ∧ ¬ Reachable diamondIsolated 1 5 := by
  refine ⟨by rfl, by decide, ?_⟩
  intro h
  have he : diamondIsolated.edges = [(1, 2), (1, 3), (2, 3), (3, 4)] := by rfl
  rcases Relation.ReflTransGen.cases_tail h with h0 | ⟨c, _, hc⟩
  · exact absurd h0 (by decide)
  · rw [he] at hc
    simp at hc

/-! ## Strong connectivity -/

/-- C3 (the code departs from the claim): the 3-cycle A to B to C to A is
strongly connected, every vertex reaches every vertex along its edges, and
`isStronglyConnected()` returns false for it. -/
theorem isStronglyConnected_cycle3 :
    cycle3.isStronglyConnected = false ∧ StronglyConnected cycle3 := by
  refine ⟨by decide, ?_⟩
  have he : cycle3.edges = [(1, 2), (2, 3), (3, 1)] := by rfl
  have hv : cycle3.vertices = [1, 2, 3] := by rfl
  have h12 : Reachable cycle3 1 2 :=
    Relation.ReflTransGen.single (by show ((1 : Int), (2 : Int)) ∈ cycle3.edges; rw [he]; simp)
  have h23 : Reachable cycle3 2 3 :=
    Relation.ReflTransGen.single (by show ((2 : Int), (3 : Int)) ∈ cycle3.edges; rw [he]; simp)
  have h31 : Reachable cycle3 3 1 :=
    Relation.ReflTransGen.single (by show ((3 : Int), (1 : Int)) ∈ cycle3.edges; rw [he]; simp)
  intro u hu v hv'
  rw [hv] at hu hv'
  simp only [List.mem_cons, List.mem_singleton, List.not_mem_nil, or_false] at hu hv'
  rcases hu with rfl | rfl | rfl <;> rcases hv' with rfl | rfl | rfl
  · exact Relation.ReflTransGen.refl
  · exact h12
  · exact h12.trans h23
  · exact h23.trans h31
  · exact Relation.ReflTransGen.refl
  · exact h23
  · exact h31
  · exact h31.trans h12
  · exact Relation.ReflTransGen.refl

/-! ## Removal -/

/-- C4 (the code departs from the claim): in the graph with the vertices 1, 2
and the edge from 1 to 2, `removeVertex(2)` succeeds and removes the vertex 2,
but the edge (1, 2) into it stays stored and `edgeCount()` is still 1. -/
theorem removeVertex_keeps_incoming :
    (oneEdge.removeVertex 2).1 = .ok () ∧
    (oneEdge.removeVertex 2).2.vertices = [1] ∧
    (oneEdge.removeVertex 2).2.edges = [(1, 2)] ∧
    oneEdge.edgeCount = 1 ∧ (oneEdge.removeVertex 2).2.edgeCount = 1 := by
  refine ⟨by rfl, by rfl, by rfl, by rfl, by rfl⟩

/-- C5 (the code departs from the claim): in the graph with the vertices 1, 2
and the edge from 1 to 2, `removeEdge(1, 2)` returns normally and the graph is
what it was: the edge is still listed, still has its payload, and both edge
counts are still 1. -/
theorem removeEdge_keeps_edge :
    oneEdge.removeEdge 1 2 = (.ok (), oneEdge) ∧
    (oneEdge.removeEdge 1 2).2.edges = [(1, 2)] ∧
    (oneEdge.removeEdge 1 2).2.edgeInfo 1 2 = .ok 7 ∧
    (oneEdge.removeEdge 1 2).2.edgeCount = 1 ∧
    (oneEdge.removeEdge 1 2).2.edgeCountOf 1 = .ok 1 := by
  refine ⟨by rfl, by rfl, by rfl, by rfl, by rfl⟩

/-! ## Listing the edges of a vertex -/

/-- C6 (the code departs from the claim): in the graph whose only vertex is 1,
with no edge, the vertex 1 is present and `edgeCount(1)` is 0, yet `edges(1)`
throws the exception "Vertex does not exist". -/
theorem edgesOf_fails_without_edges :
    1 ∈ oneVertex.vertices ∧ oneVertex.edgeCountOf 1 = .ok 0 ∧
    oneVertex.edgesOf 1 = .error (.digraph ⟨"Vertex does not exist"⟩) := by
  refine ⟨by decide, by rfl, by rfl⟩

/-! ## Walking the predecessors back -/

/-- C7 (the code departs from the claim): in the graph with the vertices 0 and
5 and no edge, `findShortestPaths` from 0 returns predecessor(5) = 0, so the
walk back from 5 arrives at the start in one step although 5 is not reachable
from 0; and with the vertices 0, 1, 2 and one edge from 1 to 2 of weight 20000,
the walk back from 2 falls into the self-entry of 0 and never arrives at the
start 1, although 2 is reachable from 1. -/
theorem findShortestPaths_walk_back :
    zeroAndFive.findShortestPaths 0 id = some (.ok [(0, 0), (5, 0)]) ∧
    ¬ Reachable zeroAndFive 0 5 ∧
    longEdge.findShortestPaths 1 id = some (.ok [(0, 0), (1, 1), (2, 0)]) ∧
    Reachable longEdge 1 2 := by
  refine ⟨by rfl, ?_, by rfl, ?_⟩
  · intro h
    have he : zeroAndFive.edges = [] := by rfl
    rcases Relation.ReflTransGen.cases_tail h with h0 | ⟨c, _, hc⟩
    · exact absurd h0 (by decide)
    · rw [he] at hc
      simp at hc
  · have he : longEdge.edges = [(1, 2)] := by rfl
    exact Relation.ReflTransGen.single
      (by show ((1 : Int), (2 : Int)) ∈ longEdge.edges; rw [he]; simp)

/-! ## Failing insertions -/

/-- C8: when the key `v` is already a vertex of `g`, `addVertex(v, payload)`
throws the exception "Vertex is already in the Digraph." and the graph it
leaves is `g` itself; in particular `vertexInfo(v)` succeeds before and after
with the same payload, the one stored in `g`. -/
theorem addVertex_duplicate_unchanged {V E : Type} (g : Digraph V E) (v : Int) (payload : V)
    (h : v ∈ g.vertices) :
    (g.addVertex v payload).1 = .error (.digraph ⟨"Vertex is already in the Digraph."⟩) ∧
    (g.addVertex v payload).2 = g ∧
    (g.addVertex v payload).2.vertices = g.vertices ∧
    (g.addVertex v payload).2.vertexCount = g.vertexCount ∧
    (g.addVertex v payload).2.edgeCount = g.edgeCount ∧
    (g.addVertex v payload).2.edgeCountOf v = g.edgeCountOf v ∧
    ∃ dv, g.adjList.find v = some dv ∧ g.vertexInfo v = .ok dv.vinfo ∧
      (g.addVertex v payload).2.vertexInfo v = .ok dv.vinfo := by
  obtain ⟨dv, hdv⟩ := StdMap.find_isSome_of_mem g.adjList v h
  have hadd : g.addVertex v payload =
      (.error (.digraph ⟨"Vertex is already in the Digraph."⟩), g) := by
    simp [Digraph.addVertex, hdv]
  rw [hadd]
  refine ⟨rfl, rfl, rfl, rfl, rfl, rfl, dv, hdv, ?_, ?_⟩ <;> simp [Digraph.vertexInfo, hdv]

/-- C8 at a concrete graph: a second `addVertex(1, 9)` on the graph that holds
the vertex 1 with payload 4. -/
theorem addVertex_duplicate_unchanged_witness :
    (1 : Int) ∈ (((Digraph.empty : Digraph Nat Int).addVertex 1 4).2).vertices ∧
    ((((Digraph.empty : Digraph Nat Int).addVertex 1 4).2).addVertex 1 9).2.vertexInfo 1
      = .ok 4 := by
  refine ⟨by decide, ?_⟩
  obtain ⟨_, h2, _⟩ :=
    addVertex_duplicate_unchanged (((Digraph.empty : Digraph Nat Int).addVertex 1 4).2) 1 9
      (by decide)
  rw [h2]
  rfl

/-- C9: when `from` is not a vertex of `g`, or when `edgeInfo(from, to)`
succeeds (the edge is stored), `addEdge(from, to, payload)` throws, "Outgoing
vertex does not exist" in the first case and "Edge already exists" in the
second, and the graph it leaves is `g` itself, so the stored edge keeps its
payload. -/
theorem addEdge_failure_unchanged {V E : Type} (g : Digraph V E) (fromVertex toVertex : Int)
    (payload : E)
    (h : fromVertex ∉ g.vertices ∨ ∃ x, g.edgeInfo fromVertex toVertex = .ok x) :
    (g.addEdge fromVertex toVertex payload).2 = g ∧
    ((fromVertex ∉ g.vertices ∧ (g.addEdge fromVertex toVertex payload).1 =
        .error (.digraph ⟨"Outgoing vertex does not exist"⟩)) ∨
     (fromVertex ∈ g.vertices ∧ (g.addEdge fromVertex toVertex payload).1 =
        .error (.digraph ⟨"Edge already exists"⟩))) ∧
    (g.addEdge fromVertex toVertex payload).2.edgeInfo fromVertex toVertex =
      g.edgeInfo fromVertex toVertex := by
  cases hf : g.adjList.find fromVertex with
  | none =>
    have hn : fromVertex ∉ g.vertices := (StdMap.find_eq_none_iff g.adjList fromVertex).1 hf
    have hadd : g.addEdge fromVertex toVertex payload =
        (.error (.digraph ⟨"Outgoing vertex does not exist"⟩), g) := by
      simp [Digraph.addEdge, hf]
    rw [hadd]
    exact ⟨rfl, Or.inl ⟨hn, rfl⟩, rfl⟩
  | some dv =>
    have hm : fromVertex ∈ g.vertices := by
      by_contra hn
      rw [(StdMap.find_eq_none_iff g.adjList fromVertex).2 hn] at hf
      cases hf
    rcases h with h | ⟨x, hx⟩
    · exact absurd hm h
    · have hany : dv.edges.any (fun i => decide (i.toVertex = toVertex)) = true := by
        simp only [Digraph.edgeInfo, hf] at hx
        cases hfind : dv.edges.find? (fun i => decide (i.toVertex = toVertex)) with
        | none => rw [hfind] at hx; cases hx
        | some e =>
          have hmem := List.mem_of_find?_eq_some hfind
          have hp := List.find?_some hfind
          exact List.any_eq_true.2 ⟨e, hmem, hp⟩
      have hadd : g.addEdge fromVertex toVertex payload =
          (.error (.digraph ⟨"Edge already exists"⟩), g) := by
        simp only [Digraph.addEdge, hf, hany, if_true]
      rw [hadd]
      exact ⟨rfl, Or.inr ⟨hm, rfl⟩, rfl⟩

/-- C9 at concrete graphs: `addEdge(1, 2, 9)` on the graph that stores the edge
from 1 to 2 with payload 7, and `addEdge(3, 1, 9)` on the same graph, which
has no vertex 3. -/
theorem addEdge_failure_unchanged_witness :
    ((oneEdge.addEdge 1 2 9).2 = oneEdge ∧ (oneEdge.addEdge 1 2 9).2.edgeInfo 1 2 = .ok 7) ∧
    (oneEdge.addEdge 3 1 9).2 = oneEdge := by
  have h1 := addEdge_failure_unchanged oneEdge 1 2 9 (Or.inr ⟨7, by rfl⟩)
  have h2 := addEdge_failure_unchanged oneEdge 3 1 9 (Or.inl (by decide))
  refine ⟨⟨h1.1, ?_⟩, h2.1⟩
  rw [h1.2.2]
  rfl

/-- C10 (the code departs from the claim): in the graph whose only vertex is
1, `addEdge(1, 2, 9)` returns normally although 2 is not a vertex, and the
edge (1, 2) is stored afterwards. -/
theorem addEdge_to_absent_vertex :
    1 ∈ oneVertex.vertices ∧ 2 ∉ oneVertex.vertices ∧
    (oneVertex.addEdge 1 2 9).1 = .ok () ∧
    (oneVertex.addEdge 1 2 9).2.edges = [(1, 2)] ∧
    oneVertex.edgeCount = 0 ∧ (oneVertex.addEdge 1 2 9).2.edgeCount = 1 := by
  refine ⟨by decide, by decide, by rfl, by rfl, by rfl, by rfl⟩

/-! ## Invariant I1 along sequences of calls -/

/-- C11 (the code departs from the claim): two sequences of calls from the
empty graph leave a dangling edge.  After `addVertex(1)`, `addEdge(1, 2, 9)` the
edge (1, 2) is listed and 2 is no vertex; after `addVertex(1)`, `addVertex(2)`,
`addEdge(1, 2, 7)`, `removeVertex(2)` the edge (1, 2) is still listed and 2 is
no vertex any more. -/
theorem run_leaves_dangling_edge :
    (Digraph.run danglingByAddOps).edges = [(1, 2)] ∧
    (Digraph.run danglingByAddOps).vertices = [1] ∧
    ¬ (Digraph.run danglingByAddOps).NoDangling ∧
    (Digraph.run danglingByRemoveOps).edges = [(1, 2)] ∧
    (Digraph.run danglingByRemoveOps).vertices = [1] ∧
    ¬ (Digraph.run danglingByRemoveOps).NoDangling := by
  have e1 : (Digraph.run danglingByAddOps).edges = [(1, 2)] := by rfl
  have v1 : (Digraph.run danglingByAddOps).vertices = [1] := by rfl
  have e2 : (Digraph.run danglingByRemoveOps).edges = [(1, 2)] := by rfl
  have v2 : (Digraph.run danglingByRemoveOps).vertices = [1] := by rfl
  refine ⟨e1, v1, ?_, e2, v2, ?_⟩
  · intro h
    have h2 := (h (1, 2) (by rw [e1]; simp)).2
    rw [v1] at h2
    simp at h2
  · intro h
    have h2 := (h (1, 2) (by rw [e2]; simp)).2
    rw [v2] at h2
    simp at h2

/-! ## A start vertex that is not in the graph -/

/-- C13 (the code departs from the claim): in the graph whose only vertex is
1, `findShortestPaths(2, w)` does not return a map, but what it throws is the
`std::out_of_range` of `adjList.at(2)`, not a `DigraphException`, while
`vertexInfo(2)` and `edgeCount(2)` on the same graph throw a `DigraphException`. -/
theorem findShortestPaths_absent_start :
    2 ∉ oneVertex.vertices ∧
    oneVertex.findShortestPaths 2 id = some (.error .outOfRange) ∧
    (∀ e, oneVertex.findShortestPaths 2 id ≠ some (.error (.digraph e))) ∧
    oneVertex.vertexInfo 2 = .error (.digraph ⟨"Vertex does not exist."⟩) ∧
    oneVertex.edgeCountOf 2 = .error (.digraph ⟨"Vertex does not exist."⟩) := by
  have h : oneVertex.findShortestPaths 2 id = some (.error .outOfRange) := by rfl
  refine ⟨by decide, h, ?_, by rfl, by rfl⟩
  intro e he
  rw [h] at he
  cases he

/-! ## Moving -/

/-- C17 (the claim as stated fails): moving the graph with the single vertex 1
into a graph that holds the vertices 1, 2 and the edge from 1 to 2 leaves the
source with 2 vertices and 1 edge, not empty. -/
theorem moveAssign_source_not_empty :
    (Digraph.moveAssign oneEdge oneVertex).2.vertexCount = 2 ∧
    (Digraph.moveAssign oneEdge oneVertex).2.edgeCount = 1 ∧
    ¬ ((Digraph.moveAssign oneEdge oneVertex).2.vertexCount = 0 ∧
       (Digraph.moveAssign oneEdge oneVertex).2.edgeCount = 0) := by
  have h1 : (Digraph.moveAssign oneEdge oneVertex).2.vertexCount = 2 := by rfl
  refine ⟨h1, by rfl, ?_⟩
  intro h
  rw [h1] at h
  exact absurd h.1 (by decide)

/-- C17 (amended): move assignment exchanges the contents, so the target ends
with the vertices and edges the source had and the source ends with those the
target had, its counts being the former counts of the target; move construction
gives the new graph the vertices and edges of the source and leaves the source
with no vertex and no edge. -/
theorem move_exchanges_contents {V E : Type} (target source : Digraph V E) :
    (Digraph.moveAssign target source).1 = source ∧
    (Digraph.moveAssign target source).2 = target ∧
    (Digraph.moveAssign target source).1.vertices = source.vertices ∧
    (Digraph.moveAssign target source).1.edges = source.edges ∧
    (Digraph.moveAssign target source).2.vertexCount = target.vertexCount ∧
    (Digraph.moveAssign target source).2.edgeCount = target.edgeCount ∧
    (Digraph.moveConstruct source).1 = source ∧
    (Digraph.moveConstruct source).1.vertices = source.vertices ∧
    (Digraph.moveConstruct source).1.edges = source.edges ∧
    (Digraph.moveConstruct source).2.vertexCount = 0 ∧
    (Digraph.moveConstruct source).2.edgeCount = 0 := by
  refine ⟨rfl, rfl, rfl, rfl, rfl, rfl, rfl, rfl, rfl, rfl, rfl⟩

/-! ## The initial distance -/

/-- C18 (the code departs from the claim): in the graph with the vertices 1, 2
and the single edge from 1 to 2 of weight 20000, `findShortestPaths` from 1
returns predecessor(2) = 0, and 0 is neither a vertex nor the source of an edge
into 2: the edge is never relaxed, because 20000 is not below the initial
distance 13337. -/
theorem findShortestPaths_heavy_edge :
    heavyEdge.edges = [(1, 2)] ∧ heavyEdge.edgeInfo 1 2 = .ok 20000 ∧
    heavyEdge.findShortestPaths 1 id = some (.ok [(1, 1), (2, 0)]) ∧
    0 ∉ heavyEdge.vertices ∧ ((0 : Int), (2 : Int)) ∉ heavyEdge.edges := by
  refine ⟨by rfl, by rfl, by rfl, by decide, by decide⟩

/-! ## The algebra of `std::map` lookups -/

theorem StdMap.find_set {β : Type} (m : StdMap β) (k : Int) (v : β) (k' : Int) :
    (m.set k v).find k' = if k = k' then some v else m.find k' := by
  induction m with
  | nil => simp [StdMap.set, StdMap.find]
  | cons hd tl ih =>
    obtain ⟨a, b⟩ := hd
    simp only [StdMap.set]
    by_cases h1 : k < a
    · simp only [h1, if_true, StdMap.find]
    · simp only [h1, if_false]
      by_cases h2 : k = a
      · subst h2
        simp only [if_true, StdMap.find]
        by_cases h3 : k = k' <;> simp [h3]
      · simp only [h2, if_false, StdMap.find, ih]
        by_cases h3 : a = k'
        · have h4 : ¬ k = k' := fun h => h2 (h.trans h3.symm)
          simp [h3, h4]
        · simp [h3]

theorem StdMap.find_modify {β : Type} (m : StdMap β) (k : Int) (f : β → β) (k' : Int) :
    (m.modify k f).find k' = if k = k' then (m.find k).map f else m.find k' := by
  induction m with
  | nil => simp [StdMap.modify, StdMap.find]
  | cons hd tl ih =>
    obtain ⟨a, b⟩ := hd
    simp only [StdMap.modify]
    by_cases h1 : a = k
    · subst h1
      simp only [if_true, StdMap.find]
      by_cases h3 : a = k' <;> simp [h3]
    · simp only [h1, if_false, StdMap.find, ih]
      by_cases h3 : a = k'
      · have h4 : ¬ k = k' := fun h => h1 (h3.trans h.symm)
        simp [h3, h4]
      · simp [h3]

theorem StdMap.map_fst_modify {β : Type} (m : StdMap β) (k : Int) (f : β → β) :
    (m.modify k f).map (fun i => i.1) = m.map (fun i => i.1) := by
  induction m with
  | nil => rfl
  | cons hd tl ih =>
    obtain ⟨a, b⟩ := hd
    simp only [StdMap.modify]
    by_cases h1 : a = k
    · simp [h1]
    · simp [h1, ih]

/-! ## Counting edges -/

theorem foldl_add_length {V E : Type} (l : StdMap (DigraphVertex V E)) (a : Nat) :
    l.foldl (fun count i => count + i.2.edges.length) a =
      a + (l.map (fun i => i.2.edges.length)).sum := by
  induction l generalizing a with
  | nil => simp
  | cons hd tl ih => simp [List.foldl_cons, ih, Nat.add_assoc]

theorem Digraph.edgeCount_eq_sum {V E : Type} (g : Digraph V E) :
    g.edgeCount = (g.adjList.map (fun i => i.2.edges.length)).sum := by
  simp [Digraph.edgeCount, foldl_add_length]

theorem sum_length_modify {V E : Type} (m : StdMap (DigraphVertex V E)) (k : Int)
    (x : DigraphEdge E) (dv : DigraphVertex V E) (h : m.find k = some dv) :
    ((m.modify k (fun v => { v with edges := v.edges ++ [x] })).map
        (fun i => i.2.edges.length)).sum =
      (m.map (fun i => i.2.edges.length)).sum + 1 := by
  induction m with
  | nil => simp [StdMap.find] at h
  | cons hd tl ih =>
    obtain ⟨a, b⟩ := hd
    simp only [StdMap.modify]
    by_cases h1 : a = k
    · simp only [h1, if_true, List.map_cons, List.sum_cons, List.length_append,
        List.length_singleton]
      omega
    · simp only [StdMap.find, h1, if_false] at h
      simp only [h1, if_false, List.map_cons, List.sum_cons, ih h]
      omega

/-! ## A successful `addEdge` -/

/-- C14: when `from` is a vertex of `g` and `edgeInfo(from, to)` does not
succeed (no such edge is stored), `addEdge(from, to, e)` returns normally, and
afterwards `edgeInfo(from, to)` returns `e`, `edgeCount()` and
`edgeCount(from)` are one larger, the vertices and `vertexCount()` are the
same, and `edgeInfo` gives on every other pair what it gave before. -/
theorem addEdge_success {V E : Type} (g : Digraph V E) (fromVertex toVertex : Int) (e : E)
    (hfrom : fromVertex ∈ g.vertices) (hno : ∀ x, g.edgeInfo fromVertex toVertex ≠ .ok x) :
    (g.addEdge fromVertex toVertex e).1 = .ok () ∧
    (g.addEdge fromVertex toVertex e).2.edgeInfo fromVertex toVertex = .ok e ∧
    (g.addEdge fromVertex toVertex e).2.edgeCount = g.edgeCount + 1 ∧
    (∃ n, g.edgeCountOf fromVertex = .ok n ∧
      (g.addEdge fromVertex toVertex e).2.edgeCountOf fromVertex = .ok (n + 1)) ∧
    (g.addEdge fromVertex toVertex e).2.vertexCount = g.vertexCount ∧
    (g.addEdge fromVertex toVertex e).2.vertices = g.vertices ∧
    ∀ f t, (f, t) ≠ (fromVertex, toVertex) →
      (g.addEdge fromVertex toVertex e).2.edgeInfo f t = g.edgeInfo f t := by
  obtain ⟨dv, hdv⟩ := StdMap.find_isSome_of_mem g.adjList fromVertex hfrom
  have hfind : dv.edges.find? (fun i => decide (i.toVertex = toVertex)) = none := by
    cases hq : dv.edges.find? (fun i => decide (i.toVertex = toVertex)) with
    | none => rfl
    | some i =>
      exfalso
      apply hno i.einfo
      simp only [Digraph.edgeInfo, hdv, hq]
  have hany : dv.edges.any (fun i => decide (i.toVertex = toVertex)) = false := by
    rw [List.find?_eq_none] at hfind
    rw [Bool.eq_false_iff]
    intro hc
    obtain ⟨i, hi, hp⟩ := List.any_eq_true.1 hc
    exact hfind i hi hp
  have hadd : g.addEdge fromVertex toVertex e =
      (.ok (), ⟨g.adjList.modify fromVertex
        (fun v => { v with edges := v.edges ++
          [{ fromVertex := fromVertex, toVertex := toVertex, einfo := e }] })⟩) := by
    simp only [Digraph.addEdge, hdv, hany]
    rfl
  rw [hadd]
  refine ⟨rfl, ?_, ?_, ⟨dv.edges.length, ?_, ?_⟩, ?_, ?_, ?_⟩
  · simp only [Digraph.edgeInfo, StdMap.find_modify, if_true, hdv, Option.map_some',
      List.find?_append, hfind]
    simp
  · simp only [Digraph.edgeCount_eq_sum]
    exact sum_length_modify g.adjList fromVertex _ dv hdv
  · simp only [Digraph.edgeCountOf, hdv]
  · simp only [Digraph.edgeCountOf, StdMap.find_modify, if_true, hdv, Option.map_some',
      List.length_append, List.length_singleton]
  · have := congrArg List.length (StdMap.map_fst_modify g.adjList fromVertex
      (fun v => { v with edges := v.edges ++
          [{ fromVertex := fromVertex, toVertex := toVertex, einfo := e }] }))
    simpa [Digraph.vertexCount] using this
  · exact StdMap.map_fst_modify g.adjList fromVertex _
  · intro f t hne
    simp only [Digraph.edgeInfo, StdMap.find_modify]
    by_cases h1 : fromVertex = f
    · subst h1
      have h2 : ¬ toVertex = t := fun h => hne (by rw [h])
      simp only [if_true, hdv, Option.map_some', List.find?_append]
      cases hq : dv.edges.find? (fun i => decide (i.toVertex = t)) with
      | none => simp [h2]
      | some i => simp
    · simp only [h1, if_false]

/-- C14 at a concrete graph: `addEdge(2, 1, 9)` on the graph with the vertices
1, 2 and the edge from 1 to 2 with payload 7. -/
theorem addEdge_success_witness :
    (2 : Int) ∈ oneEdge.vertices ∧
    (oneEdge.addEdge 2 1 9).2.edgeInfo 2 1 = .ok 9 ∧
    (oneEdge.addEdge 2 1 9).2.edgeCount = oneEdge.edgeCount + 1 ∧
    (oneEdge.addEdge 2 1 9).2.edgeInfo 1 2 = .ok 7 := by
  have h := addEdge_success oneEdge 2 1 9 (by decide) (by intro x hx; cases hx)
  refine ⟨by decide, h.2.1, h.2.2.1, ?_⟩
  rw [h.2.2.2.2.2.2 1 2 (by decide)]
  rfl

/-! ## What the mutating member functions keep -/

theorem StdMap.mem_of_find {β : Type} (m : StdMap β) (k : Int) (v : β)
    (h : m.find k = some v) : (k, v) ∈ m := by
  induction m with
  | nil => simp [StdMap.find] at h
  | cons hd tl ih =>
    obtain ⟨a, b⟩ := hd
    by_cases h1 : a = k
    · simp only [StdMap.find, h1, if_true, Option.some.injEq] at h
      simp [h1, h]
    · simp only [StdMap.find, h1, if_false] at h
      exact List.mem_cons_of_mem _ (ih h)

theorem StdMap.mem_set {β : Type} (m : StdMap β) (k : Int) (v : β) (x : Int × β)
    (h : x ∈ m.set k v) : x = (k, v) ∨ x ∈ m := by
  induction m with
  | nil => simpa [StdMap.set] using h
  | cons hd tl ih =>
    obtain ⟨a, b⟩ := hd
    simp only [StdMap.set] at h
    by_cases h1 : k < a
    · simp only [h1, if_true, List.mem_cons] at h
      rcases h with h | h | h
      · exact Or.inl h
      · exact Or.inr (by simp [h])
      · exact Or.inr (List.mem_cons_of_mem _ h)
    · simp only [h1, if_false] at h
      by_cases h2 : k = a
      · simp only [h2, if_true, List.mem_cons] at h
        rcases h with h | h
        · exact Or.inl (by rw [h, h2])
        · exact Or.inr (List.mem_cons_of_mem _ h)
      · simp only [h2, if_false, List.mem_cons] at h
        rcases h with h | h
        · exact Or.inr (by simp [h])
        · rcases ih h with h | h
          · exact Or.inl h
          · exact Or.inr (List.mem_cons_of_mem _ h)

theorem StdMap.sorted_set {β : Type} (m : StdMap β) (k : Int) (v : β)
    (h : m.Pairwise (fun a b => a.1 < b.1)) :
    (m.set k v).Pairwise (fun a b => a.1 < b.1) := by
  induction m with
  | nil => simp [StdMap.set]
  | cons hd tl ih =>
    obtain ⟨a, b⟩ := hd
    rw [List.pairwise_cons] at h
    simp only [StdMap.set]
    by_cases h1 : k < a
    · simp only [h1, if_true]
      refine List.Pairwise.cons ?_ (List.Pairwise.cons h.1 h.2)
      intro x hx
      rcases List.mem_cons.1 hx with hx | hx
      · rw [hx]; exact h1
      · exact lt_trans h1 (h.1 x hx)
    · simp only [h1, if_false]
      by_cases h2 : k = a
      · simp only [h2, if_true]
        exact List.Pairwise.cons h.1 h.2
      · simp only [h2, if_false]
        refine List.Pairwise.cons ?_ (ih h.2)
        intro x hx
        rcases StdMap.mem_set tl k v x hx with hx | hx
        · rw [hx]
          show a < k
          omega
        · exact h.1 x hx

theorem StdMap.mem_modify {β : Type} (m : StdMap β) (k : Int) (f : β → β) (x : Int × β)
    (h : x ∈ m.modify k f) : x ∈ m ∨ ∃ v, m.find k = some v ∧ x = (k, f v) := by
  induction m with
  | nil => simp [StdMap.modify] at h
  | cons hd tl ih =>
    obtain ⟨a, b⟩ := hd
    simp only [StdMap.modify] at h
    by_cases h1 : a = k
    · simp only [h1, if_true, List.mem_cons] at h
      rcases h with h | h
      · exact Or.inr ⟨b, by simp [StdMap.find, h1], h⟩
      · exact Or.inl (List.mem_cons_of_mem _ h)
    · simp only [h1, if_false, List.mem_cons] at h
      rcases h with h | h
      · exact Or.inl (by simp [h])
      · rcases ih h with h | ⟨v, hv, hx⟩
        · exact Or.inl (List.mem_cons_of_mem _ h)
        · exact Or.inr ⟨v, by simp [StdMap.find, h1, hv], hx⟩

theorem StdMap.erase_sublist {β : Type} (m : StdMap β) (k : Int) :
    List.Sublist (m.erase k) m := by
  induction m with
  | nil => exact List.Sublist.refl _
  | cons hd tl ih =>
    obtain ⟨a, b⟩ := hd
    simp only [StdMap.erase]
    by_cases h1 : a = k
    · simp only [h1, if_true]
      exact List.sublist_cons_self _ _
    · simp only [h1, if_false]
      exact List.Sublist.cons₂ _ ih

theorem Digraph.wellFormed_empty {V E : Type} : (Digraph.empty : Digraph V E).WellFormed := by
  refine ⟨?_, ?_⟩
  · simp [Digraph.empty, Digraph.vertices]
  · intro i hi
    simp [Digraph.empty] at hi

theorem Digraph.wellFormed_addVertex {V E : Type} (g : Digraph V E) (vertex : Int) (vinfo : V)
    (h : g.WellFormed) : (g.addVertex vertex vinfo).2.WellFormed := by
  unfold Digraph.addVertex
  cases hf : g.adjList.find vertex with
  | some dv => exact h
  | none =>
    refine ⟨?_, ?_⟩
    · have h1 := h.1
      simp only [Digraph.vertices, List.pairwise_map] at h1 ⊢
      exact StdMap.sorted_set g.adjList vertex _ h1
    · intro i hi
      rcases StdMap.mem_set g.adjList vertex _ i hi with hi | hi
      · subst hi
        simp
      · exact h.2 i hi

theorem Digraph.wellFormed_addEdge {V E : Type} (g : Digraph V E) (fromVertex toVertex : Int)
    (einfo : E) (h : g.WellFormed) : (g.addEdge fromVertex toVertex einfo).2.WellFormed := by
  unfold Digraph.addEdge
  cases hf : g.adjList.find fromVertex with
  | none => exact h
  | some dv =>
    by_cases hany : dv.edges.any (fun i => decide (i.toVertex = toVertex)) = true
    · simp only [hany, if_true]
      exact h
    · rw [Bool.not_eq_true] at hany
      simp only [hany, Bool.false_eq_true, if_false]
      refine ⟨?_, ?_⟩
      · have h1 := h.1
        simp only [Digraph.vertices] at h1 ⊢
        rw [StdMap.map_fst_modify]
        exact h1
      · intro i hi
        rcases StdMap.mem_modify g.adjList fromVertex _ i hi with hi | ⟨v, hv, hi⟩
        · exact h.2 i hi
        · rw [hf] at hv
          cases hv
          have hdv := h.2 (fromVertex, dv) (StdMap.mem_of_find g.adjList fromVertex dv hf)
          subst hi
          refine ⟨?_, ?_⟩
          · intro e he
            rcases List.mem_append.1 he with he | he
            · exact hdv.1 e he
            · rw [List.mem_singleton.1 he]
          · simp only [List.map_append, List.map_cons, List.map_nil]
            refine List.Nodup.append hdv.2 (List.nodup_singleton _) ?_
            intro x hx hx'
            rw [List.mem_singleton] at hx'
            subst hx'
            obtain ⟨e, he, hex⟩ := List.mem_map.1 hx
            rw [Bool.eq_false_iff] at hany
            exact hany (List.any_eq_true.2 ⟨e, he, by simpa using hex⟩)

theorem Digraph.wellFormed_removeVertex {V E : Type} (g : Digraph V E) (vertex : Int)
    (h : g.WellFormed) : (g.removeVertex vertex).2.WellFormed := by
  unfold Digraph.removeVertex
  cases hf : g.adjList.find vertex with
  | none => exact h
  | some dv =>
    have hs := StdMap.erase_sublist g.adjList vertex
    refine ⟨?_, ?_⟩
    · exact List.Pairwise.sublist (List.Sublist.map _ hs) h.1
    · intro i hi
      exact h.2 i (hs.subset hi)

theorem Digraph.wellFormed_removeEdge {V E : Type} (g : Digraph V E) (fromVertex toVertex : Int)
    (h : g.WellFormed) : (g.removeEdge fromVertex toVertex).2.WellFormed := by
  unfold Digraph.removeEdge
  cases hf : g.adjList.find fromVertex with
  | none => exact h
  | some dv =>
    by_cases hany : dv.edges.any (fun i => decide (i.toVertex = toVertex)) = true
    · simp only [hany, if_true]
      exact h
    · rw [Bool.not_eq_true] at hany
      simp only [hany, Bool.false_eq_true, if_false]
      exact h

theorem Digraph.wellFormed_step {V E : Type} (g : Digraph V E) (op : Op V E)
    (h : g.WellFormed) : (g.step op).WellFormed := by
  cases op with
  | addVertex vertex vinfo => exact Digraph.wellFormed_addVertex g vertex vinfo h
  | addEdge f t einfo => exact Digraph.wellFormed_addEdge g f t einfo h
  | removeVertex vertex => exact Digraph.wellFormed_removeVertex g vertex h
  | removeEdge f t => exact Digraph.wellFormed_removeEdge g f t h

theorem Digraph.wellFormed_foldl {V E : Type} (ops : List (Op V E)) (g : Digraph V E)
    (h : g.WellFormed) : (ops.foldl Digraph.step g).WellFormed := by
  induction ops generalizing g with
  | nil => exact h
  | cons op rest ih => exact ih (g.step op) (Digraph.wellFormed_step g op h)

theorem Digraph.wellFormed_run {V E : Type} (ops : List (Op V E)) :
    (Digraph.run ops).WellFormed :=
  Digraph.wellFormed_foldl ops Digraph.empty Digraph.wellFormed_empty

theorem Digraph.edges_nodup_of_wellFormed {V E : Type} (g : Digraph V E) (h : g.WellFormed) :
    g.edges.Nodup := by
  unfold Digraph.edges
  rw [List.nodup_flatMap]
  refine ⟨?_, ?_⟩
  · intro i hi
    apply List.Nodup.of_map Prod.snd
    rw [List.map_map]
    exact (h.2 i hi).2
  · have h1 := h.1
    simp only [Digraph.vertices, List.pairwise_map] at h1
    refine List.Pairwise.imp_of_mem ?_ h1
    intro a b ha hb hab
    intro p hpa hpb
    obtain ⟨ea, hea, rfl⟩ := List.mem_map.1 hpa
    obtain ⟨eb, heb, hp⟩ := List.mem_map.1 hpb
    have h2 := (h.2 a ha).1 ea hea
    have h3 := (h.2 b hb).1 eb heb
    have h4 : eb.fromVertex = ea.fromVertex := congrArg Prod.fst hp
    omega

/-! ## Invariant I2 along sequences of calls -/

/-- C12: in every graph reached from the empty graph by calls of `addVertex`,
`addEdge`, `removeVertex` and `removeEdge`, whether they return or throw,
`edges()` lists no pair twice, and every edge of the list stored under a key
has that key as its `fromVertex`. -/
theorem run_edges_nodup {V E : Type} (ops : List (Op V E)) :
    (Digraph.run ops).edges.Nodup ∧
    ∀ i ∈ (Digraph.run ops).adjList, ∀ e ∈ i.2.edges, e.fromVertex = i.1 :=
  ⟨Digraph.edges_nodup_of_wellFormed _ (Digraph.wellFormed_run ops),
    fun i hi => ((Digraph.wellFormed_run ops).2 i hi).1⟩

/-! ## What a positive answer of `isStronglyConnected()` implies -/

theorem Digraph.all_edges_of_isStronglyConnected {V E : Type} (g : Digraph V E)
    (hwf : g.WellFormed) (h : g.isStronglyConnected = true) :
    ∀ u ∈ g.vertices, ∀ v ∈ g.vertices, (u, v) ∈ g.edges := by
  intro u hu v hv
  obtain ⟨i, hi, hiu⟩ := List.mem_map.1 hu
  have hall := List.all_eq_true.1 h i hi
  simp only [decide_eq_true_eq] at hall
  have hnd : ((i.2.edges.filter (fun j => g.vertices.contains j.toVertex)).map
      (fun e => e.toVertex)).Nodup :=
    List.Nodup.sublist (List.Sublist.map _ (List.filter_sublist _)) (hwf.2 i hi).2
  have hsub : ((i.2.edges.filter (fun j => g.vertices.contains j.toVertex)).map
      (fun e => e.toVertex)) ⊆ g.vertices := by
    intro x hx
    obtain ⟨e, he, rfl⟩ := List.mem_map.1 hx
    have := (List.mem_filter.1 he).2
    simpa using this
  have hperm := (List.subperm_of_subset hnd hsub).perm_of_length_le
    (by rw [List.length_map, hall])
  have hv' := hperm.symm.subset hv
  obtain ⟨e, he, hev⟩ := List.mem_map.1 hv'
  have he' := (List.mem_filter.1 he).1
  have hfrom := (hwf.2 i hi).1 e he'
  unfold Digraph.edges
  rw [List.mem_flatMap]
  refine ⟨i, hi, List.mem_map.2 ⟨e, he', ?_⟩⟩
  rw [hfrom, hiu, hev]

/-- C19: in every graph reached from the empty graph by calls of `addVertex`,
`addEdge`, `removeVertex` and `removeEdge`, when `isStronglyConnected()`
returns true, `edges()` lists the pair (u, v) for all vertices u and v, the
pairs (u, u) included, and so every vertex is reachable from every vertex. -/
theorem isStronglyConnected_sound {V E : Type} (ops : List (Op V E))
    (h : (Digraph.run ops).isStronglyConnected = true) :
    (∀ u ∈ (Digraph.run ops).vertices, ∀ v ∈ (Digraph.run ops).vertices,
      (u, v) ∈ (Digraph.run ops).edges) ∧
    StronglyConnected (Digraph.run ops) := by
  have hall := Digraph.all_edges_of_isStronglyConnected _ (Digraph.wellFormed_run ops) h
  exact ⟨hall, fun u hu v hv => Relation.ReflTransGen.single (hall u hu v hv)⟩

/-- C19 at a concrete graph: the vertices 1 and 2 with all four edges between
them, for which `isStronglyConnected()` returns true. -/
theorem isStronglyConnected_sound_witness :
    (Digraph.run completeTwoOps).isStronglyConnected = true ∧
    ((1 : Int), (2 : Int)) ∈ (Digraph.run completeTwoOps).edges ∧
    StronglyConnected (Digraph.run completeTwoOps) := by
  have h := isStronglyConnected_sound completeTwoOps (by decide)
  exact ⟨by decide, h.1 1 (by decide) 2 (by decide), h.2⟩

/-! ## The queue of the general engine -/

theorem Engine.top_eq_none_iff {W : Type} (q : List (Int × W)) (n : Nat) :
    Engine.top q n = none ↔ q = [] := by
  unfold Engine.top
  rw [List.getElem?_eq_none_iff]
  constructor
  · intro h
    by_contra hne
    have hpos : 0 < q.length := List.length_pos.2 hne
    have := Nat.mod_lt n hpos
    omega
  · intro h
    rw [h]
    simp

theorem Engine.top_mem {W : Type} (q : List (Int × W)) (n : Nat) (t : Int × W)
    (h : Engine.top q n = some t) : t ∈ q :=
  List.getElem?_mem h

theorem Engine.length_pop {W : Type} (q : List (Int × W)) (n : Nat) (t : Int × W)
    (h : Engine.top q n = some t) : (Engine.pop q n).length + 1 = q.length := by
  have hpos : 0 < q.length := List.length_pos_of_mem (Engine.top_mem q n t h)
  have hlt := Nat.mod_lt n hpos
  unfold Engine.pop
  rw [List.length_eraseIdx_of_lt hlt]
  omega

theorem Engine.mem_of_mem_pop {W : Type} (q : List (Int × W)) (n : Nat) (x : Int × W)
    (h : x ∈ Engine.pop q n) : x ∈ q :=
  List.mem_of_mem_eraseIdx h

/-! ## The loop of `findShortestPaths`, one iteration at a time -/

theorem Engine.whileLoop_of_nil {V E W : Type} (ops : Arith W) (g : Digraph V E) (w : E → W)
    (allVertices : List Int) (order : Nat → List (Int × W) → Nat) (st : Engine.PathState W)
    (h : st.priorityQ = []) :
    Engine.whileLoop ops g w allVertices 0 order st = some (.ok st) := by
  simp [Engine.whileLoop, h]

theorem Engine.whileLoop_succ {V E W : Type} (ops : Arith W) (g : Digraph V E) (w : E → W)
    (allVertices : List Int) (fuel : Nat) (order : Nat → List (Int × W) → Nat)
    (st : Engine.PathState W) :
    Engine.whileLoop ops g w allVertices (fuel + 1) order st =
      match Engine.top st.priorityQ (order 0 st.priorityQ) with
      | none => some (.ok st)
      | some t =>
        match Engine.iteration ops g w allVertices (order 0 st.priorityQ) st t with
        | .error e => some (.error e)
        | .ok st2 =>
          Engine.whileLoop ops g w allVertices fuel (fun k => order (k + 1)) st2 := by
  simp only [Engine.whileLoop]

/-! ## Relaxing one edge -/

theorem Engine.relaxAt_of_ne {E W : Type} (ops : Arith W) (vertex : Int) (i : DigraphEdge E)
    (d : W) (st : Engine.PathState W) (a : Int) (h : ¬ i.toVertex = a) :
    Engine.relaxAt ops vertex i d st a = .ok st := by
  simp only [Engine.relaxAt, h, if_false]

theorem Engine.relaxAt_of_found {E W : Type} (ops : Arith W) (vertex : Int)
    (i : DigraphEdge E) (d : W) (st : Engine.PathState W) (a : Int)
    (h : st.shortestFound.find a = some true) :
    Engine.relaxAt ops vertex i d st a = .ok st := by
  by_cases hta : i.toVertex = a
  · simp [Engine.relaxAt, hta, StdMap.atKey, h]
  · exact Engine.relaxAt_of_ne ops vertex i d st a hta

theorem Engine.relaxAt_of_le {E W : Type} (ops : Arith W) (vertex : Int) (i : DigraphEdge E)
    (d : W) (st : Engine.PathState W) (a : Int) (b : Bool) (dTo dVertex : W)
    (hb : st.shortestFound.find a = some b)
    (hTo : st.shortestDistance.find i.toVertex = some dTo)
    (hV : st.shortestDistance.find vertex = some dVertex)
    (hle : ¬ ops.gt dTo (ops.add dVertex d) = true) :
    Engine.relaxAt ops vertex i d st a = .ok st := by
  by_cases hta : i.toVertex = a
  · subst hta
    cases b <;> simp [Engine.relaxAt, StdMap.atKey, hb, hV, hle, hTo]
  · exact Engine.relaxAt_of_ne ops vertex i d st a hta

theorem Engine.relaxAt_of_gt {E W : Type} (ops : Arith W) (vertex : Int) (i : DigraphEdge E)
    (d : W) (st : Engine.PathState W) (a : Int) (dTo dVertex : W) (u : Int)
    (hta : i.toVertex = a)
    (hb : st.shortestFound.find a = some false)
    (hTo : st.shortestDistance.find i.toVertex = some dTo)
    (hV : st.shortestDistance.find vertex = some dVertex)
    (hP : st.vertexP.find i.toVertex = some u)
    (hgt : ops.gt dTo (ops.add dVertex d) = true) :
    Engine.relaxAt ops vertex i d st a = .ok (Engine.relaxed ops vertex i d dVertex st) := by
  subst hta
  simp [Engine.relaxAt, StdMap.atKey, StdMap.assignAt, hb, hV, hgt, hTo, hP, Engine.relaxed]

theorem foldlM_ok {σ α : Type} (f : σ → α → Except Failure σ) (P : σ → Prop) (μ : σ → Nat)
    (l : List α)
    (hstep : ∀ s a, a ∈ l → P s → ∃ s', f s a = .ok s' ∧ P s' ∧ μ s' ≤ μ s + 1)
    (s : σ) (hs : P s) :
    ∃ s', l.foldlM f s = .ok s' ∧ P s' ∧ μ s' ≤ μ s + l.length := by
  induction l generalizing s with
  | nil => exact ⟨s, rfl, hs, by simp⟩
  | cons a rest ih =>
    obtain ⟨s1, h1, hP1, hμ1⟩ := hstep s a (List.mem_cons_self _ _) hs
    obtain ⟨s2, h2, hP2, hμ2⟩ :=
      ih (fun s a ha hs => hstep s a (List.mem_cons_of_mem _ ha) hs) s1 hP1
    refine ⟨s2, ?_, hP2, ?_⟩
    · rw [List.foldlM_cons, h1]
      exact h2
    · rw [List.length_cons]
      omega

theorem Digraph.mem_vertices_of_find {V E : Type} (g : Digraph V E) (k : Int)
    (dv : DigraphVertex V E) (h : g.adjList.find k = some dv) : k ∈ g.vertices := by
  by_contra hn
  rw [(StdMap.find_eq_none_iff g.adjList k).2 hn] at h
  cases h

theorem Digraph.edgeInfo_of_mem {V E : Type} (g : Digraph V E) (vertex : Int)
    (dv : DigraphVertex V E) (i : DigraphEdge E) (h : g.adjList.find vertex = some dv)
    (hi : i ∈ dv.edges) : ∃ x, g.edgeInfo vertex i.toVertex = .ok x := by
  simp only [Digraph.edgeInfo, h]
  cases hq : dv.edges.find? (fun j => decide (j.toVertex = i.toVertex)) with
  | none =>
    rw [List.find?_eq_none] at hq
    exact absurd (by simp) (hq i hi)
  | some j => exact ⟨j.einfo, rfl⟩

theorem Engine.PathInv.relaxed_inv {V E W : Type} {g : Digraph V E} {startVertex : Int}
    {st : Engine.PathState W} (hinv : Engine.PathInv g startVertex st) (ops : Arith W)
    (vertex : Int) (dv : DigraphVertex V E) (i : DigraphEdge E) (d dVertex : W)
    (hs : st.shortestFound.find startVertex = some true)
    (hto : st.shortestFound.find i.toVertex = some false)
    (hmem : i.toVertex ∈ g.vertices)
    (hdv : g.adjList.find vertex = some dv) (hi : i ∈ dv.edges) :
    Engine.PathInv g startVertex (Engine.relaxed ops vertex i d dVertex st) := by
  have hne : ¬ i.toVertex = startVertex := by
    intro h
    rw [h, hs] at hto
    cases hto
  refine ⟨hinv.found_some, ?_, ?_, ?_, ?_, ?_, ?_⟩
  · intro k hk
    simp only [Engine.relaxed, StdMap.find_modify]
    by_cases h : i.toVertex = k
    · subst h
      obtain ⟨x, hx⟩ := hinv.distance_some _ hmem
      simp [hx]
    · simpa [h] using hinv.distance_some k hk
  · intro k
    simp only [Engine.relaxed, StdMap.find_modify]
    by_cases h : i.toVertex = k
    · subst h
      obtain ⟨x, hx⟩ := (hinv.vertexP_keys _).2 hmem
      simp [hx, hmem]
    · simpa [h] using hinv.vertexP_keys k
  · simp only [Engine.relaxed, StdMap.map_fst_modify]
    exact hinv.vertexP_sorted
  · intro x hx
    simp only [Engine.relaxed, List.mem_append, List.mem_singleton] at hx
    rcases hx with hx | hx
    · exact hinv.queue_vertices x hx
    · rw [hx]
      exact hmem
  · intro v u hv hu
    simp only [Engine.relaxed, StdMap.find_modify] at hu
    by_cases h : i.toVertex = v
    · subst h
      obtain ⟨x, hx⟩ := (hinv.vertexP_keys _).2 hmem
      simp only [if_true, hx, Option.map_some', Option.some.injEq] at hu
      subst hu
      exact Or.inr (Digraph.edgeInfo_of_mem g vertex dv i hdv hi)
    · simp only [h, if_false] at hu
      exact hinv.pred_edge v u hv hu
  · simp only [Engine.relaxed, StdMap.find_modify, hne, if_false]
    exact hinv.start_self

theorem Engine.relaxEdge_spec {V E W : Type} (ops : Arith W) (g : Digraph V E) (w : E → W)
    (startVertex vertex : Int) (dv : DigraphVertex V E) (i : DigraphEdge E)
    (st : Engine.PathState W)
    (hinv : Engine.PathInv g startVertex st)
    (hs : st.shortestFound.find startVertex = some true)
    (hv : st.shortestFound.find vertex = some true)
    (hdv : g.adjList.find vertex = some dv) (hi : i ∈ dv.edges) :
    ∃ st', Engine.relaxEdge ops w g.vertices vertex st i = .ok st' ∧
      (Engine.PathInv g startVertex st' ∧ st'.shortestFound = st.shortestFound) ∧
      st'.priorityQ.length ≤ st.priorityQ.length + 1 := by
  have hvm : vertex ∈ g.vertices := Digraph.mem_vertices_of_find g vertex dv hdv
  have key := foldlM_ok (Engine.relaxAt ops vertex i (w i.einfo))
    (fun s => Engine.PathInv g startVertex s ∧ s.shortestFound = st.shortestFound ∧
      (s = st ∨ (s.priorityQ.length = st.priorityQ.length + 1 ∧
        Engine.Settled ops vertex i (w i.einfo) s)))
    (fun _ => 0) g.vertices ?_ st ⟨hinv, rfl, Or.inl rfl⟩
  · obtain ⟨st', h1, ⟨h2, h3, h4⟩, _⟩ := key
    refine ⟨st', h1, ⟨h2, h3⟩, ?_⟩
    rcases h4 with h4 | h4
    · rw [h4]
      omega
    · omega
  · intro s a ha ⟨hsinv, hsf, hcase⟩
    have keep : Engine.relaxAt ops vertex i (w i.einfo) s a = .ok s →
        ∃ s', Engine.relaxAt ops vertex i (w i.einfo) s a = .ok s' ∧
          (Engine.PathInv g startVertex s' ∧ s'.shortestFound = st.shortestFound ∧
            (s' = st ∨ (s'.priorityQ.length = st.priorityQ.length + 1 ∧
              Engine.Settled ops vertex i (w i.einfo) s'))) ∧ 0 ≤ 0 + 1 :=
      fun h => ⟨s, h, ⟨hsinv, hsf, hcase⟩, by omega⟩
    by_cases hta : i.toVertex = a
    · obtain ⟨b, hb⟩ := hsinv.found_some a ha
      obtain ⟨dVertex, hV⟩ := hsinv.distance_some vertex hvm
      obtain ⟨dTo, hTo⟩ := hsinv.distance_some i.toVertex (by rw [hta]; exact ha)
      cases b with
      | true => exact keep (Engine.relaxAt_of_found ops vertex i _ s a hb)
      | false =>
        by_cases hgt : ops.gt dTo (ops.add dVertex (w i.einfo)) = true
        · obtain ⟨u, hu⟩ := (hsinv.vertexP_keys i.toVertex).2 (by rw [hta]; exact ha)
          have hne : ¬ i.toVertex = vertex := by
            intro h
            rw [← hta, h, hsf, hv] at hb
            cases hb
          rcases hcase with hcase | ⟨_, dV', hV', hTo'⟩
          · subst hcase
            refine ⟨Engine.relaxed ops vertex i (w i.einfo) dVertex s,
              Engine.relaxAt_of_gt ops vertex i _ s a dTo dVertex u hta hb hTo hV hu hgt,
              ⟨?_, rfl, Or.inr ⟨?_, dVertex, ?_, ?_⟩⟩, Nat.zero_le 1⟩
            · exact hsinv.relaxed_inv ops vertex dv i _ dVertex hs (by rw [hta]; exact hb)
                (by rw [hta]; exact ha) hdv hi
            · simp [Engine.relaxed]
            · simp only [Engine.relaxed, StdMap.find_modify, hne, if_false]
              exact hV
            · simp [Engine.relaxed, StdMap.find_modify, hTo]
          · rw [hV] at hV'
            cases hV'
            rw [hTo] at hTo'
            cases hTo'
            rw [ops.gt_irrefl] at hgt
            cases hgt
        · exact keep (Engine.relaxAt_of_le ops vertex i _ s a false dTo dVertex hb hTo hV hgt)
    · exact keep (Engine.relaxAt_of_ne ops vertex i _ s a hta)

/-! ## One iteration of the loop -/

theorem Engine.pendingOutDegree_congr {V E W : Type} (g : Digraph V E)
    (st st' : Engine.PathState W) (h : st'.shortestFound = st.shortestFound) :
    Engine.pendingOutDegree g st' = Engine.pendingOutDegree g st := by
  simp only [Engine.pendingOutDegree, Engine.pending, h]

theorem Engine.pendingOutDegree_finalize {V E W : Type} (g : Digraph V E)
    (st st' : Engine.PathState W) (vertex : Int) (dv : DigraphVertex V E)
    (hdv : g.adjList.find vertex = some dv)
    (hf : st.shortestFound.find vertex = some false)
    (h : st'.shortestFound = st.shortestFound.set vertex true) :
    dv.edges.length + Engine.pendingOutDegree g st' = Engine.pendingOutDegree g st := by
  have hmem : vertex ∈ Engine.pending g st := by
    simp only [Engine.pending, Finset.mem_filter, List.mem_toFinset, hf]
    exact ⟨Digraph.mem_vertices_of_find g vertex dv hdv, by simp⟩
  have herase : Engine.pending g st' = (Engine.pending g st).erase vertex := by
    ext k
    simp only [Engine.pending, Finset.mem_filter, List.mem_toFinset, Finset.mem_erase, h,
      StdMap.find_set]
    by_cases hk : vertex = k
    · simp [hk]
    · have hk' : ¬ k = vertex := fun h => hk h.symm
      simp [hk, hk']
  have hdeg : g.outDegree vertex = dv.edges.length := by
    simp only [Digraph.outDegree, hdv]
  simp only [Engine.pendingOutDegree, herase]
  rw [← hdeg]
  exact Finset.add_sum_erase (Engine.pending g st) g.outDegree hmem

theorem Engine.iteration_spec {V E W : Type} (ops : Arith W) (g : Digraph V E) (w : E → W)
    (startVertex : Int) (n : Nat) (st : Engine.PathState W) (t : Int × W)
    (hinv : Engine.PathInv g startVertex st)
    (hdisj : st.shortestFound.find startVertex = some true ∨
      ∃ x, st.priorityQ = [(startVertex, x)])
    (ht : Engine.top st.priorityQ n = some t) :
    ∃ st2, Engine.iteration ops g w g.vertices n st t = .ok st2 ∧
      Engine.PathInv g startVertex st2 ∧
      st2.shortestFound.find startVertex = some true ∧
      st2.priorityQ.length + Engine.pendingOutDegree g st2 + 1 ≤
        st.priorityQ.length + Engine.pendingOutDegree g st := by
  have htm := Engine.top_mem _ n t ht
  have hvm : t.1 ∈ g.vertices := hinv.queue_vertices t htm
  have hlen := Engine.length_pop _ n t ht
  obtain ⟨b, hb⟩ := hinv.found_some t.1 hvm
  obtain ⟨dv, hdv⟩ := StdMap.find_isSome_of_mem g.adjList t.1 hvm
  have hstart : st.shortestFound.find startVertex = some true ∨ t.1 = startVertex := by
    rcases hdisj with h | ⟨x, h⟩
    · exact Or.inl h
    · rw [h, List.mem_singleton] at htm
      rw [htm]
      exact Or.inr rfl
  have hpop : Engine.PathInv g startVertex
      { st with priorityQ := Engine.pop st.priorityQ n } :=
    ⟨hinv.found_some, hinv.distance_some, hinv.vertexP_keys, hinv.vertexP_sorted,
      fun x hx => hinv.queue_vertices x (Engine.mem_of_mem_pop _ n x hx),
      hinv.pred_edge, hinv.start_self⟩
  cases b with
  | true =>
    refine ⟨{ st with priorityQ := Engine.pop st.priorityQ n }, ?_, hpop, ?_, ?_⟩
    · simp [Engine.iteration, hb]
    · rcases hstart with h | h
      · exact h
      · rw [← h]
        exact hb
    · rw [Engine.pendingOutDegree_congr g st _ rfl]
      show (Engine.pop st.priorityQ n).length + Engine.pendingOutDegree g st + 1 ≤ _
      omega
  | false =>
    have hit : Engine.iteration ops g w g.vertices n st t =
        dv.edges.foldlM (Engine.relaxEdge ops w g.vertices t.1)
          { st with priorityQ := Engine.pop st.priorityQ n
                    shortestFound := st.shortestFound.set t.1 true } := by
      simp [Engine.iteration, hb, StdMap.atKey, hdv]
    have hfs : (st.shortestFound.set t.1 true).find startVertex = some true := by
      rw [StdMap.find_set]
      rcases hstart with h | h
      · by_cases hk : t.1 = startVertex <;> simp [hk, h]
      · simp [h]
    have hfv : (st.shortestFound.set t.1 true).find t.1 = some true := by
      rw [StdMap.find_set]
      simp
    have hinv1 : Engine.PathInv g startVertex
        { st with priorityQ := Engine.pop st.priorityQ n
                  shortestFound := st.shortestFound.set t.1 true } := by
      refine ⟨?_, hpop.distance_some, hpop.vertexP_keys, hpop.vertexP_sorted,
        hpop.queue_vertices, hpop.pred_edge, hpop.start_self⟩
      intro k hk
      show ∃ b, (st.shortestFound.set t.1 true).find k = some b
      rw [StdMap.find_set]
      by_cases h : t.1 = k
      · exact ⟨true, by simp [h]⟩
      · simpa [h] using hinv.found_some k hk
    obtain ⟨st2, h1, ⟨h2, h3⟩, h4⟩ :=
      foldlM_ok (Engine.relaxEdge ops w g.vertices t.1)
        (fun s => Engine.PathInv g startVertex s ∧
          s.shortestFound = st.shortestFound.set t.1 true)
        (fun s => s.priorityQ.length) dv.edges
        (fun s i hi hs => by
          obtain ⟨hsinv, hsf⟩ := hs
          obtain ⟨s', e1, ⟨e2, e3⟩, e4⟩ :=
            Engine.relaxEdge_spec ops g w startVertex t.1 dv i s hsinv
              (by rw [hsf]; exact hfs) (by rw [hsf]; exact hfv) hdv hi
          exact ⟨s', e1, ⟨e2, e3.trans hsf⟩, e4⟩)
        _ ⟨hinv1, rfl⟩
    refine ⟨st2, hit.trans h1, h2, ?_, ?_⟩
    · rw [h3]
      exact hfs
    · have hp := Engine.pendingOutDegree_finalize g st st2 t.1 dv hdv hb h3
      have h5 : st2.priorityQ.length ≤ (Engine.pop st.priorityQ n).length + dv.edges.length :=
        h4
      omega

/-! ## The whole loop -/

theorem Engine.whileLoop_spec {V E W : Type} (ops : Arith W) (g : Digraph V E) (w : E → W)
    (startVertex : Int) (N : Nat) :
    ∀ (order : Nat → List (Int × W) → Nat) (st : Engine.PathState W),
      Engine.PathInv g startVertex st →
      (st.shortestFound.find startVertex = some true ∨
        ∃ x, st.priorityQ = [(startVertex, x)]) →
      st.priorityQ.length + Engine.pendingOutDegree g st ≤ N →
      ∃ n st', Engine.whileLoop ops g w g.vertices n order st = some (.ok st') ∧
        Engine.PathInv g startVertex st' ∧
        n + Engine.pendingOutDegree g st' ≤
          st.priorityQ.length + Engine.pendingOutDegree g st := by
  induction N with
  | zero =>
    intro order st hinv _ hN
    have hq : st.priorityQ = [] := List.eq_nil_of_length_eq_zero (by omega)
    exact ⟨0, st, Engine.whileLoop_of_nil ops g w _ order st hq, hinv, by omega⟩
  | succ N ih =>
    intro order st hinv hdisj hN
    cases ht : Engine.top st.priorityQ (order 0 st.priorityQ) with
    | none =>
      have hq := (Engine.top_eq_none_iff _ _).1 ht
      exact ⟨0, st, Engine.whileLoop_of_nil ops g w _ order st hq, hinv, by omega⟩
    | some t =>
      obtain ⟨st2, h1, h2, h3, h4⟩ :=
        Engine.iteration_spec ops g w startVertex _ st t hinv hdisj ht
      obtain ⟨n, st', e1, e2, e3⟩ := ih (fun k => order (k + 1)) st2 h2 (Or.inl h3) (by omega)
      refine ⟨n + 1, st', ?_, e2, by omega⟩
      rw [Engine.whileLoop_succ, ht]
      simp only [h1]
      exact e1

theorem Engine.whileLoop_mono {V E W : Type} (ops : Arith W) (g : Digraph V E) (w : E → W)
    (allVertices : List Int) (n : Nat) :
    ∀ (order : Nat → List (Int × W) → Nat) (st : Engine.PathState W)
      (r : Except Failure (Engine.PathState W)) (k : Nat),
      Engine.whileLoop ops g w allVertices n order st = some r →
      Engine.whileLoop ops g w allVertices (n + k) order st = some r := by
  induction n with
  | zero =>
    intro order st r k h
    have hq : st.priorityQ = [] := by
      by_contra hne
      simp [Engine.whileLoop, hne] at h
    rw [Engine.whileLoop_of_nil ops g w _ order st hq] at h
    cases k with
    | zero => rw [Engine.whileLoop_of_nil ops g w _ order st hq]; exact h
    | succ k =>
      rw [Nat.zero_add, Engine.whileLoop_succ, (Engine.top_eq_none_iff _ _).2 hq]
      exact h
  | succ n ih =>
    intro order st r k h
    rw [Engine.whileLoop_succ] at h
    rw [Nat.add_right_comm, Engine.whileLoop_succ]
    cases ht : Engine.top st.priorityQ (order 0 st.priorityQ) with
    | none => rw [ht] at h; exact h
    | some t =>
      rw [ht] at h
      simp only at h ⊢
      cases hi : Engine.iteration ops g w allVertices (order 0 st.priorityQ) st t with
      | error e => rw [hi] at h; exact h
      | ok st2 =>
        rw [hi] at h
        exact ih _ st2 r k h

/-! ## The state at the entry of the loop -/

theorem Engine.initVertex_vertexP {W : Type} (ops : Arith W) {s : Int}
    (st : Engine.PathState W) (a k : Int) :
    (Engine.initVertex ops s st a).vertexP.find k =
      if a = k then some (if k = s then s else 0) else st.vertexP.find k := by
  by_cases h : a = s
  · subst h
    simp only [Engine.initVertex, if_true, StdMap.find_set]
    by_cases hk : a = k
    · simp [hk]
    · have hk' : ¬ k = a := fun h => hk h.symm
      simp [hk, hk']
  · simp only [Engine.initVertex, h, if_false, StdMap.find_set]
    by_cases hk : a = k
    · have hk' : ¬ k = s := fun h' => h (hk.trans h')
      simp [hk, hk']
    · simp [hk]

theorem Engine.initVertex_found {W : Type} (ops : Arith W) {s : Int}
    (st : Engine.PathState W) (a k : Int) :
    (Engine.initVertex ops s st a).shortestFound.find k =
      if a = k then some false else st.shortestFound.find k := by
  by_cases h : a = s
  · simp only [Engine.initVertex, h, if_true, StdMap.find_set]
  · simp only [Engine.initVertex, h, if_false, StdMap.find_set]

theorem Engine.initVertex_distance {W : Type} (ops : Arith W) {s : Int}
    (st : Engine.PathState W) (a k : Int)
    (h : a = k ∨ ∃ d, st.shortestDistance.find k = some d) :
    ∃ d, (Engine.initVertex ops s st a).shortestDistance.find k = some d := by
  by_cases hs : a = s
  · simp only [Engine.initVertex, hs, if_true, StdMap.find_set]
    by_cases hk : s = k
    · simp [hk]
    · rcases h with h | h
      · exact absurd (hs.symm.trans h) hk
      · simpa [hk] using h
  · simp only [Engine.initVertex, hs, if_false, StdMap.find_set]
    by_cases hk : a = k
    · simp [hk]
    · rcases h with h | h
      · exact absurd h hk
      · simpa [hk] using h

theorem Engine.initVertex_queue {W : Type} (ops : Arith W) {s : Int}
    (st : Engine.PathState W) (a : Int) :
    (Engine.initVertex ops s st a).priorityQ = st.priorityQ := by
  by_cases h : a = s
  · simp only [Engine.initVertex, h, if_true]
  · simp only [Engine.initVertex, h, if_false]

theorem Engine.initVertex_sorted {W : Type} (ops : Arith W) {s : Int}
    (st : Engine.PathState W) (a : Int)
    (h : (st.vertexP.map (fun i => i.1)).Pairwise (fun a b => a < b)) :
    ((Engine.initVertex ops s st a).vertexP.map (fun i => i.1)).Pairwise
      (fun a b => a < b) := by
  rw [List.pairwise_map] at h ⊢
  by_cases hs : a = s
  · simp only [Engine.initVertex, hs, if_true]
    exact StdMap.sorted_set _ _ _ (StdMap.sorted_set _ _ _ h)
  · simp only [Engine.initVertex, hs, if_false]
    exact StdMap.sorted_set _ _ _ h

theorem Engine.initFold_spec {W : Type} (ops : Arith W) (s : Int) (l : List Int) :
    ∀ st : Engine.PathState W,
      (l.foldl (Engine.initVertex ops s) st).priorityQ = st.priorityQ ∧
      (∀ k, (l.foldl (Engine.initVertex ops s) st).vertexP.find k =
        if k ∈ l then some (if k = s then s else 0) else st.vertexP.find k) ∧
      (∀ k, (l.foldl (Engine.initVertex ops s) st).shortestFound.find k =
        if k ∈ l then some false else st.shortestFound.find k) ∧
      (∀ k, (k ∈ l ∨ ∃ d, st.shortestDistance.find k = some d) →
        ∃ d, (l.foldl (Engine.initVertex ops s) st).shortestDistance.find k = some d) ∧
      ((st.vertexP.map (fun i => i.1)).Pairwise (fun a b => a < b) →
        ((l.foldl (Engine.initVertex ops s) st).vertexP.map (fun i => i.1)).Pairwise
          (fun a b => a < b)) := by
  induction l with
  | nil =>
    intro st
    exact ⟨rfl, fun k => by simp, fun k => by simp,
      fun k h => by simpa using h, fun h => h⟩
  | cons a rest ih =>
    intro st
    obtain ⟨h1, h2, h3, h4, h5⟩ := ih (Engine.initVertex ops s st a)
    simp only [List.foldl_cons]
    refine ⟨h1.trans (Engine.initVertex_queue ops st a), ?_, ?_, ?_, ?_⟩
    · intro k
      rw [h2 k, Engine.initVertex_vertexP]
      by_cases hr : k ∈ rest
      · simp [hr]
      · by_cases hk : a = k
        · simp [hk]
        · have hk' : ¬ k = a := fun h => hk h.symm
          simp [hr, hk, hk']
    · intro k
      rw [h3 k, Engine.initVertex_found]
      by_cases hr : k ∈ rest
      · simp [hr]
      · by_cases hk : a = k
        · simp [hk]
        · have hk' : ¬ k = a := fun h => hk h.symm
          simp [hr, hk, hk']
    · intro k hk
      apply h4 k
      rcases hk with hk | hk
      · rcases List.mem_cons.1 hk with hk | hk
        · exact Or.inr (Engine.initVertex_distance ops st a k (Or.inl hk.symm))
        · exact Or.inl hk
      · exact Or.inr (Engine.initVertex_distance ops st a k (Or.inr hk))
    · intro h
      exact h5 (Engine.initVertex_sorted ops st a h)

theorem Engine.initState_queue {V E W : Type} (ops : Arith W) (g : Digraph V E) (s : Int) :
    (Engine.initState ops g s).priorityQ = [(s, ops.ofInt 0)] := by
  have h := (Engine.initFold_spec ops s g.vertices ⟨[], [], [], []⟩).1
  simp only [Engine.initState, h]
  rfl

theorem Engine.initState_found {V E W : Type} (ops : Arith W) (g : Digraph V E) (s k : Int) :
    (Engine.initState ops g s).shortestFound.find k =
      if k ∈ g.vertices then some false else none := by
  have h := (Engine.initFold_spec ops s g.vertices ⟨[], [], [], []⟩).2.2.1 k
  simpa [Engine.initState, StdMap.find] using h

theorem Engine.initState_inv {V E W : Type} (ops : Arith W) (g : Digraph V E) (s : Int)
    (hs : s ∈ g.vertices) : Engine.PathInv g s (Engine.initState ops g s) := by
  obtain ⟨_, h2, _, h4, h5⟩ := Engine.initFold_spec ops s g.vertices ⟨[], [], [], []⟩
  have hP : ∀ k, (Engine.initState ops g s).vertexP.find k =
      if k ∈ g.vertices then some (if k = s then s else 0) else none := by
    intro k
    simpa [Engine.initState, StdMap.find] using h2 k
  refine ⟨?_, ?_, ?_, ?_, ?_, ?_, ?_⟩
  · intro k hk
    exact ⟨false, by rw [Engine.initState_found]; simp [hk]⟩
  · intro k hk
    exact h4 k (Or.inl hk)
  · intro k
    rw [hP k]
    by_cases hk : k ∈ g.vertices <;> simp [hk]
  · exact h5 (by simp)
  · intro x hx
    rw [Engine.initState_queue] at hx
    rw [List.mem_singleton.1 hx]
    exact hs
  · intro v u hv hu
    rw [hP v] at hu
    by_cases hk : v ∈ g.vertices
    · simp only [hk, if_true, hv, if_false, Option.some.injEq] at hu
      exact Or.inl hu.symm
    · simp [hk] at hu
  · rw [hP s]
    simp [hs]

/-! ## Out-degrees and the number of edges -/

theorem sum_outDegree_le {V E : Type} (m : StdMap (DigraphVertex V E)) :
    ∑ k ∈ (m.map (fun i => i.1)).toFinset, Digraph.outDegree ⟨m⟩ k ≤
      (m.map (fun i => i.2.edges.length)).sum := by
  induction m with
  | nil => simp
  | cons hd tl ih =>
    obtain ⟨a, b⟩ := hd
    have hsplit : ∑ k ∈ ((((a, b) :: tl).map (fun i => i.1))).toFinset,
        Digraph.outDegree ⟨(a, b) :: tl⟩ k =
        Digraph.outDegree ⟨(a, b) :: tl⟩ a +
          ∑ k ∈ ((tl.map (fun i => i.1)).toFinset).erase a,
            Digraph.outDegree ⟨(a, b) :: tl⟩ k := by
      simp only [List.map_cons, List.toFinset_cons]
      by_cases ha : a ∈ (tl.map (fun i => i.1)).toFinset
      · rw [Finset.insert_eq_of_mem ha]
        exact (Finset.add_sum_erase _ _ ha).symm
      · rw [Finset.sum_insert ha, Finset.erase_eq_of_not_mem ha]
    have hhead : Digraph.outDegree (⟨(a, b) :: tl⟩ : Digraph V E) a = b.edges.length := by
      simp [Digraph.outDegree, StdMap.find]
    have hrest : ∑ k ∈ ((tl.map (fun i => i.1)).toFinset).erase a,
        Digraph.outDegree ⟨(a, b) :: tl⟩ k =
        ∑ k ∈ ((tl.map (fun i => i.1)).toFinset).erase a, Digraph.outDegree ⟨tl⟩ k := by
      apply Finset.sum_congr rfl
      intro k hk
      have hne : ¬ a = k := fun h => (Finset.mem_erase.1 hk).1 h.symm
      simp [Digraph.outDegree, StdMap.find, hne]
    have hle : ∑ k ∈ ((tl.map (fun i => i.1)).toFinset).erase a, Digraph.outDegree ⟨tl⟩ k ≤
        ∑ k ∈ (tl.map (fun i => i.1)).toFinset, Digraph.outDegree ⟨tl⟩ k :=
      Finset.sum_le_sum_of_subset (Finset.erase_subset _ _)
    rw [hsplit, hhead, hrest]
    simp only [List.map_cons, List.sum_cons]
    omega

theorem Engine.finalized_add_pending {V E W : Type} (g : Digraph V E)
    (st : Engine.PathState W) :
    Engine.finalizedOutDegree g st + Engine.pendingOutDegree g st =
      ∑ k ∈ g.vertices.toFinset, g.outDegree k := by
  simp only [Engine.finalizedOutDegree, Engine.pendingOutDegree, Engine.finalized,
    Engine.pending]
  exact Finset.sum_filter_add_sum_filter_not _ _ _

theorem Digraph.sum_outDegree_le_edgeCount {V E : Type} (g : Digraph V E) :
    ∑ k ∈ g.vertices.toFinset, g.outDegree k ≤ g.edgeCount := by
  rw [Digraph.edgeCount_eq_sum]
  exact sum_outDegree_le g.adjList

/-! ## The run of `findShortestPaths` -/

theorem Engine.findShortestPaths_of_whileLoop {V E W : Type} (ops : Arith W)
    (order : Nat → List (Int × W) → Nat) (g : Digraph V E) (w : E → W)
    (s : Int) (n : Nat) (r : Except Failure (Engine.PathState W))
    (h : Engine.whileLoop ops g w g.vertices n order (Engine.initState ops g s) = some r)
    (hn : n ≤ 1 + g.edgeCount) :
    Engine.findShortestPaths ops order g s w = some (Engine.resultOf r) := by
  have hm := Engine.whileLoop_mono ops g w g.vertices n order (Engine.initState ops g s) r
    (1 + g.edgeCount - n) h
  have he : n + (1 + g.edgeCount - n) = 1 + g.edgeCount := by omega
  rw [he] at hm
  simp only [Engine.findShortestPaths, hm]

theorem Engine.run_of_present {V E W : Type} (ops : Arith W)
    (order : Nat → List (Int × W) → Nat) (g : Digraph V E) (w : E → W) (s : Int)
    (hs : s ∈ g.vertices) :
    ∃ n st, Engine.whileLoop ops g w g.vertices n order (Engine.initState ops g s) =
        some (.ok st) ∧
      Engine.PathInv g s st ∧ n ≤ 1 + Engine.finalizedOutDegree g st ∧
      n ≤ 1 + g.edgeCount := by
  obtain ⟨n, st, h1, h2, h3⟩ :=
    Engine.whileLoop_spec ops g w s _ order (Engine.initState ops g s)
      (Engine.initState_inv ops g s hs)
      (Or.inr ⟨_, Engine.initState_queue ops g s⟩) (le_refl _)
  rw [Engine.initState_queue] at h3
  have h4 := Engine.finalized_add_pending g st
  have h5 := Engine.finalized_add_pending g (Engine.initState ops g s)
  have h6 := Digraph.sum_outDegree_le_edgeCount g
  simp only [List.length_singleton] at h3
  exact ⟨n, st, h1, h2, by omega, by omega⟩

theorem Engine.run_of_absent {V E W : Type} (ops : Arith W)
    (order : Nat → List (Int × W) → Nat) (g : Digraph V E) (w : E → W) (s : Int)
    (hs : s ∉ g.vertices) :
    Engine.whileLoop ops g w g.vertices 1 order (Engine.initState ops g s) =
      some (.error .outOfRange) := by
  have hq := Engine.initState_queue ops g s
  have hf : (Engine.initState ops g s).shortestFound.find s = none := by
    rw [Engine.initState_found]
    simp [hs]
  have ha : g.adjList.find s = none := (StdMap.find_eq_none_iff g.adjList s).2 hs
  have ht : ∀ n, Engine.top (Engine.initState ops g s).priorityQ n =
      some (s, ops.ofInt 0) := by
    intro n
    rw [hq]
    simp [Engine.top, Nat.mod_one]
  have hi : ∀ n, Engine.iteration ops g w g.vertices n (Engine.initState ops g s)
      (s, ops.ofInt 0) = .error .outOfRange := by
    intro n
    simp [Engine.iteration, hf, StdMap.find_set, StdMap.atKey, ha]
  rw [Engine.whileLoop_succ, ht]
  simp only [hi]

/-! ## The entry of the start vertex -/

/-- C15: for every arithmetic on the distances (exact or rounding, with or
without NaN and infinities), every order in which the queue hands out its
entries, every weight function and every start vertex of the graph,
`findShortestPaths` returns a map, and the map sends the start vertex to
itself, whatever edges lead back into it. -/
theorem findShortestPaths_start_self {V E W : Type} (ops : Arith W)
    (order : Nat → List (Int × W) → Nat) (g : Digraph V E) (startVertex : Int)
    (edgeWeightFunc : E → W) (h : startVertex ∈ g.vertices) :
    ∃ m, Engine.findShortestPaths ops order g startVertex edgeWeightFunc = some (.ok m) ∧
      m.find startVertex = some startVertex := by
  obtain ⟨n, st, h1, h2, _, h4⟩ :=
    Engine.run_of_present ops order g edgeWeightFunc startVertex h
  exact ⟨st.vertexP,
    Engine.findShortestPaths_of_whileLoop ops order g edgeWeightFunc startVertex n _ h1 h4,
    h2.start_self⟩

/-- C15 at a concrete graph: start 1 in the graph with a self-loop at 1 of
weight -5 and an edge back from 2 to 1, once with NaN as the weight of that
edge and the queue handing out its newest entry first, once with a sum that
rounds and the queue handing out the oldest entry of largest priority. -/
theorem findShortestPaths_start_self_witness :
    (1 : Int) ∈ loopBack.vertices ∧ ((1 : Int), (1 : Int)) ∈ loopBack.edges ∧
    ((2 : Int), (1 : Int)) ∈ loopBack.edges ∧ loopBack.edgeInfo 2 1 = .ok (-7) ∧
    nanWeight (-7) = none ∧
    (∃ m, Engine.findShortestPaths nanOps Engine.newestFirst loopBack 1 nanWeight =
        some (.ok m) ∧ m.find 1 = some 1) ∧
    (∃ m, Engine.findShortestPaths roundingOps Engine.oldestLargest loopBack 1 id =
        some (.ok m) ∧ m.find 1 = some 1) :=
  ⟨by decide, by decide, by decide, by rfl, by rfl,
    findShortestPaths_start_self nanOps Engine.newestFirst loopBack 1 nanWeight (by decide),
    findShortestPaths_start_self roundingOps Engine.oldestLargest loopBack 1 id (by decide)⟩

/-! ## Termination -/

/-- C16: for every graph, start vertex, weight function, arithmetic on the
distances and order in which the queue hands out its entries, the `while` loop
of `findShortestPaths` ends after some number `n` of iterations, with a state
or with an exception, where `n` is at most 1 plus the sum of the out-degrees
of the vertices finalized at the end (each counted once), which is at most
`1 + edgeCount()`; so `findShortestPaths` yields the result of that run. -/
theorem findShortestPaths_terminates {V E W : Type} (ops : Arith W)
    (order : Nat → List (Int × W) → Nat) (g : Digraph V E) (startVertex : Int)
    (edgeWeightFunc : E → W) :
    ∃ n r, Engine.whileLoop ops g edgeWeightFunc g.vertices n order
        (Engine.initState ops g startVertex) = some r ∧
      n ≤ Engine.iterationBound g r ∧ Engine.iterationBound g r ≤ 1 + g.edgeCount ∧
      Engine.findShortestPaths ops order g startVertex edgeWeightFunc =
        some (Engine.resultOf r) := by
  by_cases h : startVertex ∈ g.vertices
  · obtain ⟨n, st, h1, _, h3, h4⟩ :=
      Engine.run_of_present ops order g edgeWeightFunc startVertex h
    refine ⟨n, .ok st, h1, h3, ?_,
      Engine.findShortestPaths_of_whileLoop ops order g edgeWeightFunc startVertex n _ h1 h4⟩
    have h5 := Engine.finalized_add_pending g st
    have h6 := Digraph.sum_outDegree_le_edgeCount g
    show 1 + Engine.finalizedOutDegree g st ≤ 1 + g.edgeCount
    omega
  · have h1 := Engine.run_of_absent ops order g edgeWeightFunc startVertex h
    refine ⟨1, .error .outOfRange, h1, le_refl _, ?_,
      Engine.findShortestPaths_of_whileLoop ops order g edgeWeightFunc startVertex 1 _ h1
        (by omega)⟩
    show 1 ≤ 1 + g.edgeCount
    omega

/-! ## The shape of the returned map -/

/-- C20: for every arithmetic on the distances, every order in which the
queue hands out its entries, every weight function and every start vertex of
the graph, `findShortestPaths` returns a map whose keys are exactly the
vertices of the graph, each once, and whose entry for a vertex v other than
the start is 0 or a vertex u for which `edgeInfo(u, v)` succeeds (the edge is
stored); this holds also when the graph stores edges to keys that are no
vertices. -/
theorem findShortestPaths_shape {V E W : Type} (ops : Arith W)
    (order : Nat → List (Int × W) → Nat) (g : Digraph V E) (startVertex : Int)
    (edgeWeightFunc : E → W) (h : startVertex ∈ g.vertices) :
    ∃ m, Engine.findShortestPaths ops order g startVertex edgeWeightFunc = some (.ok m) ∧
      (∀ k, (∃ u, m.find k = some u) ↔ k ∈ g.vertices) ∧
      (m.map (fun i => i.1)).Pairwise (fun a b => a < b) ∧
      ∀ v u, v ≠ startVertex → m.find v = some u →
        u = 0 ∨ ∃ x, g.edgeInfo u v = .ok x := by
  obtain ⟨n, st, h1, h2, _, h4⟩ :=
    Engine.run_of_present ops order g edgeWeightFunc startVertex h
  exact ⟨st.vertexP,
    Engine.findShortestPaths_of_whileLoop ops order g edgeWeightFunc startVertex n _ h1 h4,
    h2.vertexP_keys, h2.vertexP_sorted, h2.pred_edge⟩

/-- C20 at a concrete graph: start 1 in the graph with the vertices 1, 2, 3, 5,
in which the entries of 2 and 3 tie in the queue and the edge from 3 to 4 has
no target vertex.  When the queue hands out the newest entry first the map
sends 5 to 3, when it hands out the oldest of the largest it sends 5 to 2; the
theorem covers both runs, and in the first the entry 3 of the vertex 5 is a
vertex with a stored edge to 5. -/
theorem findShortestPaths_shape_witness :
    (1 : Int) ∈ tieGraph.vertices ∧ (4 : Int) ∉ tieGraph.vertices ∧
    ((3 : Int), (4 : Int)) ∈ tieGraph.edges ∧
    Engine.findShortestPaths exactOps Engine.newestFirst tieGraph 1 id =
      some (.ok [(1, 1), (2, 1), (3, 1), (5, 3)]) ∧
    Engine.findShortestPaths exactOps Engine.oldestLargest tieGraph 1 id =
      some (.ok [(1, 1), (2, 1), (3, 1), (5, 2)]) ∧
    ((3 : Int) = 0 ∨ ∃ x, tieGraph.edgeInfo 3 5 = .ok x) ∧
    ((2 : Int) = 0 ∨ ∃ x, tieGraph.edgeInfo 2 5 = .ok x) := by
  have e1 : Engine.findShortestPaths exactOps Engine.newestFirst tieGraph 1 id =
      some (.ok [(1, 1), (2, 1), (3, 1), (5, 3)]) := by rfl
  have e2 : Engine.findShortestPaths exactOps Engine.oldestLargest tieGraph 1 id =
      some (.ok [(1, 1), (2, 1), (3, 1), (5, 2)]) := by rfl
  obtain ⟨m1, h1, _, _, p1⟩ :=
    findShortestPaths_shape exactOps Engine.newestFirst tieGraph 1 id (by decide)
  obtain ⟨m2, h2, _, _, p2⟩ :=
    findShortestPaths_shape exactOps Engine.oldestLargest tieGraph 1 id (by decide)
  rw [e1] at h1
  rw [e2] at h2
  simp only [Option.some.injEq, Except.ok.injEq] at h1 h2
  subst h1
  subst h2
  exact ⟨by decide, by decide, by decide, e1, e2,
    p1 5 3 (by decide) (by rfl), p2 5 2 (by decide) (by rfl)⟩

/-! ## The engine of the examples is the general engine under one order -/

theorem Digraph.whileLoop_unfold {V E : Type} (g : Digraph V E) (w : E → Int)
    (allVertices : List Int) (fuel : Nat) (st : PathState) :
    Digraph.whileLoop g w allVertices (fuel + 1) st =
      match st.priorityQ.top with
      | none => some (.ok st)
      | some t =>
        match Digraph.iteration g w allVertices st t with
        | .error e => some (.error e)
        | .ok st2 => Digraph.whileLoop g w allVertices fuel st2 := by
  cases ht : st.priorityQ.top with
  | none => simp only [Digraph.whileLoop, ht]
  | some t =>
    simp only [Digraph.whileLoop, ht, Digraph.iteration]
    split
    · split
      · rfl
      · split <;> rfl
    · rfl

theorem PriorityQueue.oldest_eq_none_iff (q : PriorityQueue) : q.top = none ↔ q = [] := by
  cases q with
  | nil => simp [PriorityQueue.top]
  | cons x rest =>
    simp only [PriorityQueue.top]
    cases h : PriorityQueue.top rest with
    | none => simp
    | some y => by_cases hc : CompareDistance x y = true <;> simp [hc]

theorem PriorityQueue.oldest_mem (q : PriorityQueue) (t : Int × Int) (h : q.top = some t) :
    t ∈ q := by
  induction q generalizing t with
  | nil => simp [PriorityQueue.top] at h
  | cons x rest ih =>
    simp only [PriorityQueue.top] at h
    cases hr : PriorityQueue.top rest with
    | none =>
      rw [hr] at h
      simp only [Option.some.injEq] at h
      simp [h]
    | some y =>
      rw [hr] at h
      by_cases hc : CompareDistance x y = true
      · simp only [hc, if_true, Option.some.injEq] at h
        rw [← h]
        exact List.mem_cons_of_mem _ (ih y hr)
      · simp only [hc, Bool.false_eq_true, if_false, Option.some.injEq] at h
        simp [h]

theorem Engine.top_oldestLargest (q : PriorityQueue) (k : Nat) :
    Engine.top q (Engine.oldestLargest k q) = PriorityQueue.top q := by
  cases h : PriorityQueue.top q with
  | none =>
    rw [(PriorityQueue.oldest_eq_none_iff q).1 h]
    rfl
  | some t =>
    have hm := PriorityQueue.oldest_mem q t h
    have hlt : List.indexOf t q < q.length :=
      List.findIdx_lt_length_of_exists ⟨t, hm, by simp⟩
    simp only [Engine.top, Engine.oldestLargest, h, Nat.mod_eq_of_lt hlt]
    rw [List.getElem?_eq_getElem hlt]
    have hp : (q[List.indexOf t q] == t) = true :=
      List.findIdx_getElem (w := hlt)
    rw [eq_of_beq hp]

theorem Engine.pop_oldestLargest (q : PriorityQueue) (k : Nat) :
    Engine.pop q (Engine.oldestLargest k q) = PriorityQueue.pop q := by
  cases h : PriorityQueue.top q with
  | none =>
    rw [(PriorityQueue.oldest_eq_none_iff q).1 h]
    rfl
  | some t =>
    have hm := PriorityQueue.oldest_mem q t h
    have hlt : List.indexOf t q < q.length :=
      List.findIdx_lt_length_of_exists ⟨t, hm, by simp⟩
    simp only [Engine.pop, Engine.oldestLargest, PriorityQueue.pop, h, Nat.mod_eq_of_lt hlt]
    exact List.eraseIdx_indexOf_eq_erase t q

theorem foldlM_map {σ τ α : Type} (c : σ → τ) (f : σ → α → Except Failure σ)
    (f' : τ → α → Except Failure τ) (h : ∀ s a, f' (c s) a = (f s a).map c)
    (l : List α) (s : σ) : l.foldlM f' (c s) = (l.foldlM f s).map c := by
  induction l generalizing s with
  | nil => rfl
  | cons a rest ih =>
    rw [List.foldlM_cons, List.foldlM_cons, h]
    cases hf : f s a with
    | error e => rfl
    | ok s1 => exact ih s1

theorem Engine.relaxAt_exact {E : Type} (vertex : Int) (i : DigraphEdge E) (d : Int)
    (st : DigraphHpp.PathState) (a : Int) :
    Engine.relaxAt exactOps vertex i d (Engine.ofPathState st) a =
      (Digraph.relaxAt vertex i d st a).map Engine.ofPathState := by
  unfold Engine.relaxAt Digraph.relaxAt
  by_cases h1 : i.toVertex = a
  · simp only [h1, if_true, Engine.ofPathState]
    cases hf : st.shortestFound.atKey a with
    | error e => rfl
    | ok found =>
      cases found with
      | true => rfl
      | false =>
        simp only [if_true]
        cases hTo : st.shortestDistance.atKey a with
        | error e => rfl
        | ok dTo =>
          cases hV : st.shortestDistance.atKey vertex with
          | error e => rfl
          | ok dVertex =>
            simp only [exactOps, decide_eq_true_eq]
            by_cases hgt : dTo > dVertex + d
            · simp only [hgt, if_true]
              cases hA : st.shortestDistance.assignAt a (dVertex + d) with
              | error e => rfl
              | ok sd =>
                cases hB : st.vertexP.assignAt a vertex with
                | error e => rfl
                | ok vp => rfl
            · simp only [hgt, if_false]
              rfl
  · simp only [h1, if_false]
    rfl

theorem Engine.relaxEdge_exact {E : Type} (w : E → Int) (allVertices : List Int)
    (vertex : Int) (st : DigraphHpp.PathState) (i : DigraphEdge E) :
    Engine.relaxEdge exactOps w allVertices vertex (Engine.ofPathState st) i =
      (Digraph.relaxEdge w allVertices vertex st i).map Engine.ofPathState :=
  foldlM_map Engine.ofPathState (Digraph.relaxAt vertex i (w i.einfo))
    (Engine.relaxAt exactOps vertex i (w i.einfo))
    (fun s a => Engine.relaxAt_exact vertex i (w i.einfo) s a) allVertices st

theorem Engine.iteration_exact {V E : Type} (g : Digraph V E) (w : E → Int)
    (allVertices : List Int) (k : Nat) (st : DigraphHpp.PathState) (t : Int × Int) :
    Engine.iteration exactOps g w allVertices (Engine.oldestLargest k st.priorityQ)
        (Engine.ofPathState st) t =
      (Digraph.iteration g w allVertices st t).map Engine.ofPathState := by
  have hfold : ∀ (dv : DigraphVertex V E) (s : DigraphHpp.PathState),
      dv.edges.foldlM (Engine.relaxEdge exactOps w allVertices t.1) (Engine.ofPathState s) =
        (dv.edges.foldlM (Digraph.relaxEdge w allVertices t.1) s).map Engine.ofPathState :=
    fun dv s => foldlM_map Engine.ofPathState (Digraph.relaxEdge w allVertices t.1)
      (Engine.relaxEdge exactOps w allVertices t.1)
      (fun s i => Engine.relaxEdge_exact w allVertices t.1 s i) dv.edges s
  have hpop := Engine.pop_oldestLargest st.priorityQ k
  unfold Engine.iteration Digraph.iteration
  simp only [Engine.ofPathState] at hfold ⊢
  rw [hpop]
  cases hfind : st.shortestFound.find t.1 with
  | none =>
    simp only [StdMap.find_set, if_true]
    cases hadj : g.adjList.atKey t.1 with
    | error e => rfl
    | ok dv =>
      exact hfold dv
        { st with priorityQ := st.priorityQ.pop
                  shortestFound := (st.shortestFound.set t.1 false).set t.1 true }
  | some b =>
    cases b with
    | true => simp [hfind]; rfl
    | false =>
      simp only [hfind, if_true]
      cases hadj : g.adjList.atKey t.1 with
      | error e => rfl
      | ok dv =>
        exact hfold dv
          { st with priorityQ := st.priorityQ.pop
                    shortestFound := st.shortestFound.set t.1 true }

theorem Engine.whileLoop_exact {V E : Type} (g : Digraph V E) (w : E → Int)
    (allVertices : List Int) (fuel : Nat) :
    ∀ st : DigraphHpp.PathState,
      Engine.whileLoop exactOps g w allVertices fuel Engine.oldestLargest
          (Engine.ofPathState st) =
        (Digraph.whileLoop g w allVertices fuel st).map (fun r => r.map Engine.ofPathState) := by
  induction fuel with
  | zero =>
    intro st
    simp only [Engine.whileLoop, Digraph.whileLoop, Engine.ofPathState]
    by_cases h : st.priorityQ.isEmpty = true
    · simp only [h, if_true]
      rfl
    · simp only [h, Bool.false_eq_true, if_false]
      rfl
  | succ fuel ih =>
    intro st
    rw [Engine.whileLoop_succ, Digraph.whileLoop_unfold]
    have htop : Engine.top (Engine.ofPathState st).priorityQ
        (Engine.oldestLargest 0 (Engine.ofPathState st).priorityQ) = st.priorityQ.top :=
      Engine.top_oldestLargest st.priorityQ 0
    rw [htop]
    cases ht : st.priorityQ.top with
    | none => rfl
    | some t =>
      have hit := Engine.iteration_exact g w allVertices 0 st t
      simp only
      rw [show (Engine.ofPathState st).priorityQ = st.priorityQ from rfl, hit]
      cases hi : Digraph.iteration g w allVertices st t with
      | error e => rfl
      | ok st2 => exact ih st2

theorem Engine.initVertex_exact (s : Int) (st : DigraphHpp.PathState) (a : Int) :
    Engine.initVertex exactOps s (Engine.ofPathState st) a =
      Engine.ofPathState (Digraph.initVertex s st a) := by
  unfold Engine.initVertex Digraph.initVertex
  by_cases h : a = s
  · simp only [h, if_true]
    rfl
  · simp only [h, if_false]
    rfl

theorem Engine.initFold_exact (s : Int) (l : List Int) :
    ∀ st : DigraphHpp.PathState,
      l.foldl (Engine.initVertex exactOps s) (Engine.ofPathState st) =
        Engine.ofPathState (l.foldl (Digraph.initVertex s) st) := by
  induction l with
  | nil => intro st; rfl
  | cons a rest ih =>
    intro st
    rw [List.foldl_cons, List.foldl_cons, Engine.initVertex_exact, ih]

theorem Engine.initState_exact {V E : Type} (g : Digraph V E) (s : Int) :
    Engine.initState exactOps g s = Engine.ofPathState (g.initState s) := by
  unfold Engine.initState Digraph.initState
  have h := Engine.initFold_exact s g.vertices ⟨[], [], [], []⟩
  rw [show (⟨[], [], [], []⟩ : Engine.PathState Int) =
    Engine.ofPathState ⟨[], [], [], []⟩ from rfl, h]
  rfl

/-- The engine that the examples above are run on is the general engine with
exact integer arithmetic and the queue order that hands out the oldest entry
of largest priority. -/
theorem Engine.findShortestPaths_exact {V E : Type} (g : Digraph V E) (s : Int)
    (w : E → Int) :
    Engine.findShortestPaths exactOps Engine.oldestLargest g s w =
      g.findShortestPaths s w := by
  unfold Engine.findShortestPaths Digraph.findShortestPaths Digraph.findShortestPathsFuel
  rw [Engine.initState_exact, Engine.whileLoop_exact]
  cases h : Digraph.whileLoop g w g.vertices (1 + g.edgeCount) (g.initState s) with
  | none => rfl
  | some r =>
    cases r with
    | error e => rfl
    | ok st => rfl

end DigraphHpp
